import Mathlib

/-!
Verification development for the course-catalog RAG pipeline
(`rag_index.py`, `json_to_pdf.py`).

Python strings are modelled as `List Char`.  Python whitespace (as used by
`str.split()`, `str.strip()` and the regex class `\s` on the characters that
occur in this code base) is modelled by `pyWs`: space, tab, newline, carriage
return, vertical tab, form feed and U+00A0.
-/

/-- Whitespace predicate modelling Python's `\s` / `str.split()` / `str.strip()`
on the character set relevant to this repository. -/
def pyWs (c : Char) : Bool :=
  c = ' ' || c = '\t' || c = '\n' || c = '\r' ||
  c = Char.ofNat 11 || c = Char.ofNat 12 || c = Char.ofNat 160

/-- Right strip: drop trailing whitespace (helper for `pyStrip`). -/
def stripEnd (t : List Char) : List Char :=
  (t.reverse.dropWhile pyWs).reverse

/-- Python `str.strip()`: drop leading and trailing whitespace. -/
def pyStrip (t : List Char) : List Char :=
  stripEnd (t.dropWhile pyWs)

/-- Python `re.sub(r"\s+", " ", t)`: replace every maximal whitespace run by a
single space.  Each match of the regex is a maximal run, replaced by `" "`. -/
def collapseWs : List Char → List Char
  | [] => []
  | c :: rest =>
    if pyWs c then ' ' :: collapseWs (rest.dropWhile pyWs)
    else c :: collapseWs rest
termination_by t => t.length
decreasing_by
  · have h : (rest.dropWhile pyWs).length ≤ rest.length :=
      (List.dropWhile_sublist pyWs).length_le
    simp only [List.length_cons]
    omega
  · simp [Nat.lt_succ_self]

/-- Python `str.split()` (no argument): the maximal non-whitespace runs, in
order. -/
def pyWords : List Char → List (List Char)
  | [] => []
  | c :: rest =>
    if pyWs c then pyWords rest
    else (c :: rest.takeWhile (fun d => !pyWs d)) ::
      pyWords (rest.dropWhile (fun d => !pyWs d))
termination_by t => t.length
decreasing_by
  · simp [Nat.lt_succ_self]
  · have h : (rest.dropWhile (fun d => !pyWs d)).length ≤ rest.length :=
      (List.dropWhile_sublist (fun d => !pyWs d)).length_le
    simp only [List.length_cons]
    omega

/-- Python `" ".join(parts)`. -/
def joinSp : List (List Char) → List Char
  | [] => []
  | [x] => x
  | x :: xs => x ++ ' ' :: joinSp xs

/-- Python pySlice `t[a:b]` (for `0 ≤ a`, `0 ≤ b`). -/
def pySlice (t : List Char) (a b : Nat) : List Char :=
  (t.take b).drop a

theorem length_pySlice_le (t : List Char) (a b : Nat) :
    (pySlice t a b).length ≤ b - a := by
  simp only [pySlice, List.length_drop, List.length_take]
  omega

theorem pyStrip_length_le (t : List Char) : (pyStrip t).length ≤ t.length := by
  have h1 : (t.dropWhile pyWs).length ≤ t.length :=
    (List.dropWhile_sublist pyWs).length_le
  have h2 : (((t.dropWhile pyWs).reverse).dropWhile pyWs).length ≤
      (t.dropWhile pyWs).reverse.length :=
    (List.dropWhile_sublist pyWs).length_le
  simp only [pyStrip, stripEnd, List.length_reverse] at *
  omega

theorem pySlice_append_pySlice (t : List Char) {a b c : Nat} (hab : a ≤ b)
    (hbc : b ≤ c) : pySlice t a b ++ pySlice t b c = pySlice t a c := by
  simp only [pySlice, List.drop_take]
  have hdrop : t.drop b = (t.drop a).drop (b - a) := by
    rw [List.drop_drop]
    congr 1
    omega
  rw [hdrop, show c - a = (b - a) + (c - b) by omega, List.take_add]

theorem pySlice_zero_length (t : List Char) : pySlice t 0 t.length = t := by
  simp [pySlice]

/-! Basic facts about the whitespace model. -/

theorem pyWs_space : pyWs ' ' = true := by decide

theorem pyWs_nl : pyWs '\n' = true := by decide

theorem dropWhile_nil_iff {α : Type} {p : α → Bool} {l : List α} :
    l.dropWhile p = [] ↔ ∀ a ∈ l, p a = true := by
  induction l with
  | nil => simp
  | cons a l ih =>
    by_cases h : p a = true
    · simp [List.dropWhile_cons, h, ih]
    · simp [List.dropWhile_cons, h]

theorem stripEnd_append_ws {u v : List Char} (h : ∀ c ∈ v, pyWs c = true) :
    stripEnd (u ++ v) = stripEnd u := by
  have : ∀ c ∈ v.reverse, pyWs c = true := by simpa using h
  simp [stripEnd, List.dropWhile_append_of_pos this]

theorem stripEnd_append_keep {u v : List Char} (h : stripEnd v ≠ []) :
    stripEnd (u ++ v) = u ++ stripEnd v := by
  have hne : v.reverse.dropWhile pyWs ≠ [] := by
    intro hnil
    apply h
    simp [stripEnd, hnil]
  simp only [stripEnd, List.reverse_append, List.dropWhile_append]
  rw [if_neg (by simpa [List.isEmpty_iff] using hne)]
  simp

theorem stripEnd_all_nonws {u : List Char} (h : ∀ c ∈ u, pyWs c = false) :
    stripEnd u = u := by
  have : u.reverse.dropWhile pyWs = u.reverse := by
    cases hr : u.reverse with
    | nil => simp
    | cons a t =>
      have ha : a ∈ u := by
        have : a ∈ u.reverse := by rw [hr]; exact List.mem_cons_self a t
        simpa using this
      rw [List.dropWhile_cons_of_neg (by simp [h a ha])]
  simp [stripEnd, this]

theorem stripEnd_eq_nil_iff {u : List Char} :
    stripEnd u = [] ↔ ∀ c ∈ u, pyWs c = true := by
  constructor
  · intro h c hc
    have : u.reverse.dropWhile pyWs = [] := by
      by_contra hne
      exact hne (by simpa [stripEnd] using congrArg List.reverse h)
    exact dropWhile_nil_iff.mp this c (by simpa using hc)
  · intro h
    have : u.reverse.dropWhile pyWs = [] :=
      dropWhile_nil_iff.mpr (fun a ha => h a (by simpa using ha))
    simp [stripEnd, this]

theorem pyStrip_nil : pyStrip [] = [] := by
  simp [pyStrip, stripEnd]

theorem pyStrip_cons_ws {c : Char} {x : List Char} (h : pyWs c = true) :
    pyStrip (c :: x) = pyStrip x := by
  simp [pyStrip, List.dropWhile_cons, h]

theorem pyStrip_eq_nil_iff {u : List Char} :
    pyStrip u = [] ↔ ∀ c ∈ u, pyWs c = true := by
  constructor
  · intro h c hc
    rcases (List.takeWhile_append_dropWhile pyWs u).symm ▸ hc |> List.mem_append.mp with
      h1 | h2
    · exact List.mem_takeWhile_imp h1
    · exact stripEnd_eq_nil_iff.mp h c h2
  · intro h
    have : u.dropWhile pyWs = [] := dropWhile_nil_iff.mpr h
    simp [pyStrip, this, stripEnd]

/-! Facts about `pyWords`. -/

theorem pyWords_nil : pyWords [] = [] := by
  rw [pyWords]

theorem pyWords_cons_ws {c : Char} {rest : List Char} (h : pyWs c = true) :
    pyWords (c :: rest) = pyWords rest := by
  rw [pyWords]
  simp [h]

theorem pyWords_cons_nonws {c : Char} {rest : List Char} (h : pyWs c = false) :
    pyWords (c :: rest) = (c :: rest.takeWhile (fun d => !pyWs d)) ::
      pyWords (rest.dropWhile (fun d => !pyWs d)) := by
  rw [pyWords]
  simp [h]

theorem pyWords_dropWhile_ws (t : List Char) :
    pyWords (t.dropWhile pyWs) = pyWords t := by
  induction t with
  | nil => simp [pyWords_nil]
  | cons c rest ih =>
    by_cases h : pyWs c = true
    · rw [List.dropWhile_cons_of_pos h, pyWords_cons_ws h, ih]
    · rw [List.dropWhile_cons_of_neg (by simp [h])]

theorem pyWords_eq_nil_iff {t : List Char} :
    pyWords t = [] ↔ ∀ c ∈ t, pyWs c = true := by
  induction t with
  | nil => simp [pyWords_nil]
  | cons c rest ih =>
    by_cases h : pyWs c = true
    · rw [pyWords_cons_ws h]
      simp [h, ih]
    · rw [pyWords_cons_nonws (by simpa using h)]
      simp [h]

theorem pyWords_append_wsrun {run b : List Char} (h : ∀ c ∈ run, pyWs c = true) :
    pyWords (run ++ b) = pyWords b := by
  induction run with
  | nil => simp
  | cons c r ih =>
    rw [List.cons_append, pyWords_cons_ws (h c (List.mem_cons_self c r))]
    exact ih (fun a ha => h a (List.mem_cons_of_mem c ha))

theorem pyWords_mem_ne_nil {t w : List Char} (hw : w ∈ pyWords t) : w ≠ [] := by
  induction t using pyWords.induct with
  | case1 => simp [pyWords_nil] at hw
  | case2 c rest h ih =>
    rw [pyWords_cons_ws (by simpa using h)] at hw
    exact ih hw
  | case3 c rest h ih =>
    rw [pyWords_cons_nonws (by simpa using h)] at hw
    rcases List.mem_cons.mp hw with h1 | h2
    · simp [h1]
    · exact ih h2

theorem pyWords_mem_nonws {t w : List Char} (hw : w ∈ pyWords t) :
    ∀ c ∈ w, pyWs c = false := by
  induction t using pyWords.induct with
  | case1 => simp [pyWords_nil] at hw
  | case2 c rest h ih =>
    rw [pyWords_cons_ws (by simpa using h)] at hw
    exact ih hw
  | case3 c rest h ih =>
    rw [pyWords_cons_nonws (by simpa using h)] at hw
    rcases List.mem_cons.mp hw with h1 | h2
    · intro a ha
      rw [h1] at ha
      rcases List.mem_cons.mp ha with h3 | h4
      · simpa [h3] using h
      · have := List.mem_takeWhile_imp h4
        simpa using this
    · exact ih h2

theorem pyWords_mem_subset {t w : List Char} (hw : w ∈ pyWords t) :
    ∀ c ∈ w, c ∈ t := by
  induction t using pyWords.induct with
  | case1 => simp [pyWords_nil] at hw
  | case2 c rest h ih =>
    rw [pyWords_cons_ws (by simpa using h)] at hw
    exact fun a ha => List.mem_cons_of_mem c (ih hw a ha)
  | case3 c rest h ih =>
    rw [pyWords_cons_nonws (by simpa using h)] at hw
    rcases List.mem_cons.mp hw with h1 | h2
    · intro a ha
      rw [h1] at ha
      rcases List.mem_cons.mp ha with h3 | h4
      · simp [h3]
      · exact List.mem_cons_of_mem c ((List.takeWhile_sublist _).subset h4)
    · intro a ha
      exact List.mem_cons_of_mem c ((List.dropWhile_sublist _).subset (ih h2 a ha))

theorem pyWords_single {w : List Char} (hne : w ≠ [])
    (hnw : ∀ c ∈ w, pyWs c = false) : pyWords w = [w] := by
  cases w with
  | nil => exact absurd rfl hne
  | cons c rest =>
    rw [pyWords_cons_nonws (hnw c (List.mem_cons_self c rest))]
    have htk : rest.takeWhile (fun d => !pyWs d) = rest :=
      List.takeWhile_eq_self_iff.mpr
        (fun a ha => by simp [hnw a (List.mem_cons_of_mem c ha)])
    have hdr : rest.dropWhile (fun d => !pyWs d) = [] := by
      have hlen := congrArg List.length
        (List.takeWhile_append_dropWhile (fun d => !pyWs d) rest)
      have hlen2 := congrArg List.length htk
      simp only [List.length_append] at hlen
      exact List.eq_nil_of_length_eq_zero (by omega)
    rw [htk, hdr, pyWords_nil]

theorem pyWords_append_sep {s : Char} (hs : pyWs s = true) (a b : List Char) :
    pyWords (a ++ s :: b) = pyWords a ++ pyWords b := by
  induction a using pyWords.induct with
  | case1 => simp [pyWords_nil, pyWords_cons_ws hs]
  | case2 c rest h ih =>
    have h' : pyWs c = true := by simpa using h
    rw [List.cons_append, pyWords_cons_ws h', pyWords_cons_ws h', ih]
  | case3 c rest h ih =>
    have h' : pyWs c = false := by simpa using h
    rw [List.cons_append, pyWords_cons_nonws h', pyWords_cons_nonws h']
    by_cases hall : ∀ x ∈ rest, (fun d => !pyWs d) x = true
    · have htk : (rest ++ s :: b).takeWhile (fun d => !pyWs d) =
          rest ++ (s :: b).takeWhile (fun d => !pyWs d) :=
        List.takeWhile_append_of_pos hall
      have hdr : (rest ++ s :: b).dropWhile (fun d => !pyWs d) =
          (s :: b).dropWhile (fun d => !pyWs d) :=
        List.dropWhile_append_of_pos hall
      have htk2 : (s :: b).takeWhile (fun d => !pyWs d) = [] :=
        List.takeWhile_cons_of_neg (by simp [hs])
      have hdr2 : (s :: b).dropWhile (fun d => !pyWs d) = s :: b :=
        List.dropWhile_cons_of_neg (by simp [hs])
      have htkr : rest.takeWhile (fun d => !pyWs d) = rest :=
        List.takeWhile_eq_self_iff.mpr hall
      have hdrr : rest.dropWhile (fun d => !pyWs d) = [] := by
        have hlen := congrArg List.length
          (List.takeWhile_append_dropWhile (fun d => !pyWs d) rest)
        have hlen2 := congrArg List.length htkr
        simp only [List.length_append] at hlen
        exact List.eq_nil_of_length_eq_zero (by omega)
      rw [htk, hdr, htk2, hdr2, htkr, hdrr, pyWords_cons_ws hs, pyWords_nil]
      simp
    · have hne : ¬((rest.takeWhile (fun d => !pyWs d)).length = rest.length) := by
        intro hlen
        exact hall (List.takeWhile_eq_self_iff.mp
          ((List.takeWhile_sublist _).eq_of_length hlen))
      have hdne : ¬(rest.dropWhile (fun d => !pyWs d)).isEmpty = true := by
        simp only [List.isEmpty_iff]
        intro hnil
        exact hall (fun x hx => dropWhile_nil_iff.mp hnil x hx)
      have htk : (rest ++ s :: b).takeWhile (fun d => !pyWs d) =
          rest.takeWhile (fun d => !pyWs d) := by
        rw [List.takeWhile_append, if_neg hne]
      have hdr : (rest ++ s :: b).dropWhile (fun d => !pyWs d) =
          rest.dropWhile (fun d => !pyWs d) ++ s :: b := by
        rw [List.dropWhile_append, if_neg hdne]
      rw [htk, hdr, ih]
      simp

/-! Facts about `joinSp` and `collapseWs`. -/

theorem joinSp_nil : joinSp [] = [] := rfl

theorem joinSp_cons_ne {x : List Char} {xs : List (List Char)} (h : xs ≠ []) :
    joinSp (x :: xs) = x ++ ' ' :: joinSp xs := by
  cases xs with
  | nil => exact absurd rfl h
  | cons y ys => rfl

theorem joinSp_pref (a b : List (List Char)) :
    joinSp a <+: joinSp (a ++ b) := by
  induction a with
  | nil => exact ⟨joinSp b, rfl⟩
  | cons x xs ih =>
    cases xs with
    | nil =>
      cases b with
      | nil => exact ⟨[], by simp⟩
      | cons y ys =>
        show joinSp [x] <+: joinSp (x :: (y :: ys))
        rw [joinSp_cons_ne (List.cons_ne_nil y ys)]
        exact ⟨' ' :: joinSp (y :: ys), rfl⟩
    | cons z zs =>
      show x ++ ' ' :: joinSp (z :: zs) <+: x ++ ' ' :: joinSp (z :: zs ++ b)
      rcases ih with ⟨tl, htl⟩
      exact ⟨tl, by rw [List.append_assoc, List.cons_append, htl]⟩

theorem mem_joinSp {ps : List (List Char)} {c : Char} :
    c ∈ joinSp ps → c = ' ' ∨ ∃ p ∈ ps, c ∈ p := by
  induction ps with
  | nil => intro hc; simp [joinSp] at hc
  | cons x xs ih =>
    intro hc
    cases xs with
    | nil => exact Or.inr ⟨x, by simp, hc⟩
    | cons y ys =>
      rw [joinSp_cons_ne (List.cons_ne_nil y ys)] at hc
      rcases List.mem_append.mp hc with h1 | h2
      · exact Or.inr ⟨x, by simp, h1⟩
      · rcases List.mem_cons.mp h2 with h3 | h4
        · exact Or.inl h3
        · rcases ih h4 with h5 | ⟨p, hp, hcp⟩
          · exact Or.inl h5
          · exact Or.inr ⟨p, List.mem_cons_of_mem x hp, hcp⟩

theorem pyWords_joinSp (ps : List (List Char)) :
    pyWords (joinSp ps) = ps.flatMap pyWords := by
  induction ps with
  | nil => simp [joinSp, pyWords_nil]
  | cons x xs ih =>
    cases xs with
    | nil => simp [joinSp]
    | cons y ys =>
      rw [joinSp_cons_ne (List.cons_ne_nil y ys), pyWords_append_sep pyWs_space,
        ih]
      simp

theorem pyWords_append_trailing {u v : List Char} (hv : ∀ c ∈ v, pyWs c = true) :
    pyWords (u ++ v) = pyWords u := by
  cases v with
  | nil => simp
  | cons s v' =>
    rw [pyWords_append_sep (hv s (List.mem_cons_self s v')) u v',
      pyWords_eq_nil_iff.mpr (fun c hc => hv c (List.mem_cons_of_mem s hc))]
    simp

theorem pyWords_stripEnd (t : List Char) :
    pyWords (stripEnd t) = pyWords t := by
  have hdec : stripEnd t ++ (t.reverse.takeWhile pyWs).reverse = t := by
    rw [stripEnd, ← List.reverse_append, List.takeWhile_append_dropWhile,
      List.reverse_reverse]
  have hws : ∀ c ∈ (t.reverse.takeWhile pyWs).reverse, pyWs c = true := by
    intro c hc
    exact List.mem_takeWhile_imp (by simpa using hc)
  calc pyWords (stripEnd t)
      = pyWords (stripEnd t ++ (t.reverse.takeWhile pyWs).reverse) :=
        (pyWords_append_trailing hws).symm
    _ = pyWords t := by rw [hdec]

theorem pyWords_pyStrip (t : List Char) : pyWords (pyStrip t) = pyWords t := by
  rw [pyStrip, pyWords_stripEnd, pyWords_dropWhile_ws]

theorem collapseWs_nil : collapseWs [] = [] := by
  rw [collapseWs]

theorem collapseWs_cons_ws {c : Char} {rest : List Char} (h : pyWs c = true) :
    collapseWs (c :: rest) = ' ' :: collapseWs (rest.dropWhile pyWs) := by
  rw [collapseWs]
  simp [h]

theorem collapseWs_cons_nonws {c : Char} {rest : List Char} (h : pyWs c = false) :
    collapseWs (c :: rest) = c :: collapseWs rest := by
  rw [collapseWs]
  simp [h]

theorem mem_collapseWs {l : List Char} {a : Char} :
    a ∈ collapseWs l → a = ' ' ∨ a ∈ l := by
  induction l using collapseWs.induct with
  | case1 => intro h; simp [collapseWs_nil] at h
  | case2 c rest h ih =>
    intro ha
    rw [collapseWs_cons_ws h] at ha
    rcases List.mem_cons.mp ha with h1 | h2
    · exact Or.inl h1
    · rcases ih h2 with h3 | h4
      · exact Or.inl h3
      · exact Or.inr (List.mem_cons_of_mem c ((List.dropWhile_sublist pyWs).subset h4))
  | case3 c rest h ih =>
    intro ha
    rw [collapseWs_cons_nonws (by simpa using h)] at ha
    rcases List.mem_cons.mp ha with h1 | h2
    · exact Or.inr (h1 ▸ List.mem_cons_self c rest)
    · rcases ih h2 with h3 | h4
      · exact Or.inl h3
      · exact Or.inr (List.mem_cons_of_mem c h4)

theorem collapseWs_nonws_append {u z : List Char}
    (h : ∀ c ∈ u, pyWs c = false) : collapseWs (u ++ z) = u ++ collapseWs z := by
  induction u with
  | nil => simp
  | cons c u' ih =>
    rw [List.cons_append, collapseWs_cons_nonws (h c (List.mem_cons_self c u')),
      ih (fun a ha => h a (List.mem_cons_of_mem c ha))]
    simp

theorem pyStrip_collapseWs_dropWhile (t : List Char) :
    pyStrip (collapseWs (t.dropWhile pyWs)) = pyStrip (collapseWs t) := by
  cases t with
  | nil => rfl
  | cons c rest =>
    by_cases h : pyWs c = true
    · rw [List.dropWhile_cons_of_pos h, collapseWs_cons_ws h,
        pyStrip_cons_ws pyWs_space]
    · rw [List.dropWhile_cons_of_neg (by simp [h])]

theorem pyStrip_head_nonws {c : Char} {x : List Char} (h : pyWs c = false) :
    pyStrip (c :: x) = stripEnd (c :: x) := by
  rw [pyStrip, List.dropWhile_cons_of_neg (by simp [h])]

theorem dropWhile_head_neg {α : Type} {p : α → Bool} {l : List α} {e : α}
    {y : List α} (h : l.dropWhile p = e :: y) : p e = false := by
  induction l with
  | nil => simp at h
  | cons a t ih =>
    by_cases hp : p a = true
    · rw [List.dropWhile_cons_of_pos hp] at h
      exact ih h
    · rw [List.dropWhile_cons_of_neg (by simp [hp])] at h
      injection h with h1 h2
      rw [← h1]
      simpa using hp

theorem pyStrip_nonws_append {w x : List Char} (hwne : w ≠ [])
    (hw : ∀ a ∈ w, pyWs a = false) :
    pyStrip (w ++ x) = stripEnd (w ++ x) := by
  cases w with
  | nil => exact absurd rfl hwne
  | cons c w' =>
    rw [List.cons_append, pyStrip_head_nonws (hw c (List.mem_cons_self c w'))]

theorem pyStrip_collapseWs_step {w r : List Char} (hwne : w ≠ [])
    (hw : ∀ x ∈ w, pyWs x = false)
    (hrhead : ∀ h : r ≠ [], pyWs (r.head h) = true)
    (ihr : pyStrip (collapseWs r) = joinSp (pyWords r)) :
    pyStrip (w ++ collapseWs r) = joinSp (w :: pyWords r) := by
  by_cases hpr : pyWords r = []
  · have hrws : ∀ x ∈ r, pyWs x = true := pyWords_eq_nil_iff.mp hpr
    have hcws : ∀ x ∈ collapseWs r, pyWs x = true := by
      intro x hx
      rcases mem_collapseWs hx with h1 | h2
      · rw [h1]; exact pyWs_space
      · exact hrws x h2
    rw [pyStrip_nonws_append hwne hw, stripEnd_append_ws hcws,
      stripEnd_all_nonws hw, hpr]
    rfl
  · have hrne : r ≠ [] := by
      intro hnil
      rw [hnil, pyWords_nil] at hpr
      exact hpr rfl
    obtain ⟨d, r₂, hr2⟩ : ∃ d r₂, r = d :: r₂ := by
      cases r with
      | nil => exact absurd rfl hrne
      | cons d r₂ => exact ⟨d, r₂, rfl⟩
    subst hr2
    have hd : pyWs d = true := hrhead (by simp)
    have hcr : collapseWs (d :: r₂) = ' ' :: collapseWs (r₂.dropWhile pyWs) :=
      collapseWs_cons_ws hd
    have hpwr : pyWords (d :: r₂) = pyWords (r₂.dropWhile pyWs) := by
      rw [pyWords_cons_ws hd, pyWords_dropWhile_ws]
    have hyne : pyWords (r₂.dropWhile pyWs) ≠ [] := by
      rw [← hpwr]
      exact hpr
    have hyne2 : r₂.dropWhile pyWs ≠ [] := by
      intro hnil
      rw [hnil, pyWords_nil] at hyne
      exact hyne rfl
    obtain ⟨e, y₂, hy2⟩ : ∃ e y₂, r₂.dropWhile pyWs = e :: y₂ := by
      cases hy : r₂.dropWhile pyWs with
      | nil => exact absurd hy hyne2
      | cons e y₂ => exact ⟨e, y₂, rfl⟩
    have he : pyWs e = false := dropWhile_head_neg hy2
    have hcy : collapseWs (r₂.dropWhile pyWs) = e :: collapseWs y₂ := by
      rw [hy2, collapseWs_cons_nonws he]
    have hsene2 : stripEnd (collapseWs (r₂.dropWhile pyWs)) ≠ [] := by
      intro hnil
      have := stripEnd_eq_nil_iff.mp hnil e
        (by rw [hcy]; exact List.mem_cons_self e _)
      rw [he] at this
      exact Bool.false_ne_true this
    have hsene : stripEnd (' ' :: collapseWs (r₂.dropWhile pyWs)) ≠ [] := by
      intro hnil
      have := stripEnd_eq_nil_iff.mp hnil e
        (by rw [hcy]; exact List.mem_cons_of_mem ' ' (List.mem_cons_self e _))
      rw [he] at this
      exact Bool.false_ne_true this
    have hstep1 : pyStrip (w ++ collapseWs (d :: r₂)) =
        w ++ stripEnd (' ' :: collapseWs (r₂.dropWhile pyWs)) := by
      rw [pyStrip_nonws_append hwne hw, hcr, stripEnd_append_keep hsene]
    have hstep2 : stripEnd (' ' :: collapseWs (r₂.dropWhile pyWs)) =
        ' ' :: stripEnd (collapseWs (r₂.dropWhile pyWs)) := by
      rw [show (' ' :: collapseWs (r₂.dropWhile pyWs)) =
        [' '] ++ collapseWs (r₂.dropWhile pyWs) from rfl,
        stripEnd_append_keep hsene2]
      rfl
    have hstep3 : stripEnd (collapseWs (r₂.dropWhile pyWs)) =
        pyStrip (collapseWs (r₂.dropWhile pyWs)) := by
      rw [hcy, pyStrip_head_nonws he]
    have hihy : pyStrip (collapseWs (r₂.dropWhile pyWs)) =
        joinSp (pyWords (d :: r₂)) := by
      have hpr2 : pyStrip (collapseWs (d :: r₂)) =
          pyStrip (collapseWs (r₂.dropWhile pyWs)) := by
        rw [hcr, pyStrip_cons_ws pyWs_space]
      rw [← hpr2, ihr]
    rw [hstep1, hstep2, hstep3, hihy, joinSp_cons_ne hpr]

/-- Key normal form: collapsing whitespace and stripping is the same as joining
the words with single spaces.  This identifies Python
`re.sub(r"\s+", " ", t).strip()` with `" ".join(t.split())`. -/
theorem pyStrip_collapseWs (t : List Char) :
    pyStrip (collapseWs t) = joinSp (pyWords t) := by
  induction t using pyWords.induct with
  | case1 => simp [collapseWs_nil, pyStrip_nil, pyWords_nil, joinSp]
  | case2 c rest h ih =>
    rw [collapseWs_cons_ws h, pyStrip_cons_ws pyWs_space,
      pyStrip_collapseWs_dropWhile, ih, pyWords_cons_ws h]
  | case3 c rest h ih =>
    have h' : pyWs c = false := by simpa using h
    have hsplit : c :: rest =
        (c :: rest.takeWhile (fun d => !pyWs d)) ++
          rest.dropWhile (fun d => !pyWs d) := by
      rw [List.cons_append, List.takeWhile_append_dropWhile]
    have hw : ∀ x ∈ c :: rest.takeWhile (fun d => !pyWs d), pyWs x = false := by
      intro x hx
      rcases List.mem_cons.mp hx with h1 | h2
      · rw [h1]; exact h'
      · simpa using List.mem_takeWhile_imp h2
    have hrhead : ∀ hne : rest.dropWhile (fun d => !pyWs d) ≠ [],
        pyWs ((rest.dropWhile (fun d => !pyWs d)).head hne) = true := by
      intro hne
      have := List.head_dropWhile_not (fun d => !pyWs d) rest hne
      simpa using this
    rw [pyWords_cons_nonws h', hsplit, collapseWs_nonws_append hw]
    exact pyStrip_collapseWs_step (by simp) hw hrhead ih

/-! The `collapse_whitespace` helper of json_to_pdf.py. -/

/-- Python `collapse_whitespace(text)` from json_to_pdf.py:
empty input returns the empty string, else `re.sub(r"\s+", " ", text).strip()`. -/
def collapse_whitespace (t : List Char) : List Char :=
  if t = [] then [] else pyStrip (collapseWs t)

theorem collapse_whitespace_eq (t : List Char) :
    collapse_whitespace t = joinSp (pyWords t) := by
  by_cases h : t = []
  · rw [h]
    simp [collapse_whitespace, pyWords_nil, joinSp]
  · rw [collapse_whitespace, if_neg h, pyStrip_collapseWs]

theorem flatMap_singleton_of {α : Type} {l : List α} {f : α → List α}
    (h : ∀ a ∈ l, f a = [a]) : l.flatMap f = l := by
  induction l with
  | nil => simp
  | cons a t ih =>
    rw [List.flatMap_cons, h a (List.mem_cons_self a t),
      ih (fun x hx => h x (List.mem_cons_of_mem a hx))]
    rfl

theorem pyWords_flatMap_self (t : List Char) :
    (pyWords t).flatMap pyWords = pyWords t :=
  flatMap_singleton_of (fun w hw =>
    pyWords_single (pyWords_mem_ne_nil hw) (pyWords_mem_nonws hw))

theorem pyWords_joinSp_pyWords (t : List Char) :
    pyWords (joinSp (pyWords t)) = pyWords t := by
  rw [pyWords_joinSp, pyWords_flatMap_self]

theorem pyWords_collapse_whitespace (t : List Char) :
    pyWords (collapse_whitespace t) = pyWords t := by
  rw [collapse_whitespace_eq, pyWords_joinSp_pyWords]

theorem collapse_whitespace_idem (t : List Char) :
    collapse_whitespace (collapse_whitespace t) = collapse_whitespace t := by
  rw [collapse_whitespace_eq t, collapse_whitespace_eq, pyWords_joinSp_pyWords]

theorem collapse_whitespace_pref (h r : List Char) :
    collapse_whitespace h <+: collapse_whitespace (h ++ ' ' :: r) := by
  rw [collapse_whitespace_eq, collapse_whitespace_eq,
    pyWords_append_sep pyWs_space]
  exact joinSp_pref (pyWords h) (pyWords r)

/-! The `strip_html` normalizer of rag_index.py.

Python source:
`_HTML_TAG_RE = re.compile(r"<[^>]+>")`; `strip_html` returns `""` for falsy
input, else removes the tag regex, replaces U+00A0 by a space, collapses
whitespace runs to single spaces and strips.

A match of `<[^>]+>` at a position is: the character `<`, a nonempty run of
characters other than `>`, then `>`.  `re.sub` removes the leftmost,
non-overlapping matches; `removeTags` performs exactly that scan. -/

def removeTags : List Char → List Char
  | [] => []
  | c :: rest =>
    if c = '<' then
      if h : rest.takeWhile (fun d => d != '>') ≠ [] ∧
          rest.dropWhile (fun d => d != '>') ≠ [] then
        removeTags (rest.dropWhile (fun d => d != '>')).tail
      else c :: removeTags rest
    else c :: removeTags rest
termination_by t => t.length
decreasing_by
  · have h1 : (rest.dropWhile (fun d => d != '>')).length ≤ rest.length :=
      (List.dropWhile_sublist (fun d => d != '>')).length_le
    have h2 : 0 < (rest.dropWhile (fun d => d != '>')).length :=
      List.length_pos.mpr h.2
    simp only [List.length_tail, List.length_cons]
    omega
  · simp [Nat.lt_succ_self]
  · simp [Nat.lt_succ_self]

/-- No position of `rest` preceded by a `<` starts a tag match: either the run
of non-`>` characters after the `<` is empty, or no `>` follows at all. -/
def noTagAt (rest : List Char) : Bool :=
  decide (rest.takeWhile (fun d => d != '>') = []) ||
  decide (rest.dropWhile (fun d => d != '>') = [])

/-- Absence of any match of `<[^>]+>`, checked at every position. -/
def tagFree : List Char → Bool
  | [] => true
  | c :: rest => (if c = '<' then noTagAt rest else true) && tagFree rest

theorem removeTags_nil : removeTags [] = [] := by
  rw [removeTags]

theorem removeTags_cons_other {c : Char} {rest : List Char} (h : c ≠ '<') :
    removeTags (c :: rest) = c :: removeTags rest := by
  rw [removeTags]
  simp [h]

theorem removeTags_cons_match {rest : List Char}
    (h : rest.takeWhile (fun d => d != '>') ≠ [] ∧
      rest.dropWhile (fun d => d != '>') ≠ []) :
    removeTags ('<' :: rest) =
      removeTags (rest.dropWhile (fun d => d != '>')).tail := by
  rw [removeTags]
  simp [h]

theorem removeTags_cons_nomatch {rest : List Char}
    (h : ¬(rest.takeWhile (fun d => d != '>') ≠ [] ∧
      rest.dropWhile (fun d => d != '>') ≠ [])) :
    removeTags ('<' :: rest) = '<' :: removeTags rest := by
  rw [removeTags]
  rw [if_pos rfl]
  exact dif_neg h

theorem tagFree_nil : tagFree [] = true := by
  rw [tagFree]

theorem tagFree_cons {c : Char} {rest : List Char} :
    tagFree (c :: rest) =
      ((if c = '<' then noTagAt rest else true) && tagFree rest) := by
  rw [tagFree]

theorem tagFree_cons_tail {c : Char} {rest : List Char}
    (h : tagFree (c :: rest) = true) : tagFree rest = true := by
  rw [tagFree_cons, Bool.and_eq_true] at h
  exact h.2

theorem noTagAt_cases {rest : List Char} (h : noTagAt rest = true) :
    rest = [] ∨ (∃ r, rest = '>' :: r) ∨ '>' ∉ rest := by
  rw [noTagAt, Bool.or_eq_true, decide_eq_true_iff, decide_eq_true_iff] at h
  rcases h with h1 | h2
  · cases rest with
    | nil => exact Or.inl rfl
    | cons a r =>
      by_cases ha : a = '>'
      · exact Or.inr (Or.inl ⟨r, by rw [ha]⟩)
      · rw [List.takeWhile_cons_of_pos (by simp [ha])] at h1
        exact absurd h1 (List.cons_ne_nil _ _)
  · refine Or.inr (Or.inr ?_)
    intro hmem
    have := dropWhile_nil_iff.mp h2 '>' hmem
    simp at this

theorem noTagAt_of_nil : noTagAt [] = true := by
  rw [noTagAt]
  simp

theorem noTagAt_of_gt {r : List Char} : noTagAt ('>' :: r) = true := by
  rw [noTagAt]
  simp

theorem noTagAt_of_not_mem {rest : List Char} (h : '>' ∉ rest) :
    noTagAt rest = true := by
  rw [noTagAt, Bool.or_eq_true, decide_eq_true_iff, decide_eq_true_iff]
  refine Or.inr (dropWhile_nil_iff.mpr ?_)
  intro a ha
  simp only [bne_iff_ne, ne_eq, decide_eq_true_iff]
  intro hEq
  exact h (hEq ▸ ha)

theorem removeTags_subset {l : List Char} {a : Char} :
    a ∈ removeTags l → a ∈ l := by
  induction l using removeTags.induct with
  | case1 =>
    intro h
    rw [removeTags_nil] at h
    simp at h
  | case2 rest hmat ih =>
    intro h
    rw [removeTags_cons_match hmat] at h
    exact List.mem_cons_of_mem _
      ((List.dropWhile_sublist _).subset ((List.tail_sublist _).subset (ih h)))
  | case3 rest hmat ih =>
    intro h
    rw [removeTags_cons_nomatch hmat] at h
    rcases List.mem_cons.mp h with h1 | h2
    · exact h1 ▸ List.mem_cons_self _ _
    · exact List.mem_cons_of_mem _ (ih h2)
  | case4 c rest hc ih =>
    intro h
    rw [removeTags_cons_other hc] at h
    rcases List.mem_cons.mp h with h1 | h2
    · exact h1 ▸ List.mem_cons_self _ _
    · exact List.mem_cons_of_mem _ (ih h2)

theorem tagFree_removeTags (l : List Char) : tagFree (removeTags l) = true := by
  induction l using removeTags.induct with
  | case1 => rw [removeTags_nil, tagFree_nil]
  | case2 rest hmat ih => rw [removeTags_cons_match hmat]; exact ih
  | case3 rest hmat ih =>
    rw [removeTags_cons_nomatch hmat, tagFree_cons, if_pos rfl,
      Bool.and_eq_true]
    refine ⟨?_, ih⟩
    rcases Decidable.not_and_iff_or_not.mp hmat with h1 | h2
    · rw [Decidable.not_not] at h1
      cases rest with
      | nil => rw [removeTags_nil]; exact noTagAt_of_nil
      | cons a r =>
        by_cases ha : a = '>'
        · subst ha
          rw [removeTags_cons_other (by decide)]
          exact noTagAt_of_gt
        · rw [List.takeWhile_cons_of_pos (by simp [ha])] at h1
          exact absurd h1 (List.cons_ne_nil _ _)
    · rw [Decidable.not_not] at h2
      have hnm : '>' ∉ rest := by
        intro hmem
        have := dropWhile_nil_iff.mp h2 '>' hmem
        simp at this
      exact noTagAt_of_not_mem (fun hmem => hnm (removeTags_subset hmem))
  | case4 c rest hc ih =>
    rw [removeTags_cons_other hc, tagFree_cons, if_neg hc, Bool.and_eq_true]
    exact ⟨rfl, ih⟩

theorem removeTags_eq_self {l : List Char} (h : tagFree l = true) :
    removeTags l = l := by
  induction l using removeTags.induct with
  | case1 => exact removeTags_nil
  | case2 rest hmat ih =>
    exfalso
    rw [tagFree_cons, if_pos rfl, Bool.and_eq_true] at h
    rcases noTagAt_cases h.1 with h1 | ⟨r, h2⟩ | h3
    · rw [h1] at hmat
      simp at hmat
    · rw [h2] at hmat
      rw [List.takeWhile_cons_of_neg (by simp)] at hmat
      exact hmat.1 rfl
    · apply hmat.2.elim
      rw [dropWhile_nil_iff]
      intro a ha
      simp only [bne_iff_ne, ne_eq, decide_eq_true_iff]
      intro hEq
      exact h3 (hEq ▸ ha)
  | case3 rest hmat ih =>
    rw [removeTags_cons_nomatch hmat, ih (tagFree_cons_tail h)]
  | case4 c rest hc ih =>
    rw [removeTags_cons_other hc, ih (tagFree_cons_tail h)]

theorem tagFree_append_left {a b : List Char}
    (h : tagFree (a ++ b) = true) : tagFree a = true := by
  induction a with
  | nil => exact tagFree_nil
  | cons c a' ih =>
    rw [List.cons_append, tagFree_cons, Bool.and_eq_true] at h
    rw [tagFree_cons, Bool.and_eq_true]
    refine ⟨?_, ih h.2⟩
    by_cases hc : c = '<'
    · rw [if_pos hc]
      rw [if_pos hc] at h
      rcases noTagAt_cases h.1 with h1 | ⟨r, h2⟩ | h3
      · rcases List.append_eq_nil.mp h1 with ⟨ha, _⟩
        rw [ha]
        exact noTagAt_of_nil
      · cases a' with
        | nil => exact noTagAt_of_nil
        | cons x xs =>
          rw [List.cons_append] at h2
          injection h2 with hx _
          rw [hx]
          exact noTagAt_of_gt
      · exact noTagAt_of_not_mem (fun hmem => h3 (List.mem_append_left b hmem))
    · rw [if_neg hc]

theorem tagFree_append_right {a b : List Char}
    (h : tagFree (a ++ b) = true) : tagFree b = true := by
  induction a with
  | nil => exact h
  | cons c a' ih => exact ih (tagFree_cons_tail h)

theorem tagFree_of_pref {a b : List Char} (hp : a <+: b)
    (h : tagFree b = true) : tagFree a = true := by
  rcases hp with ⟨t, ht⟩
  rw [← ht] at h
  exact tagFree_append_left h

theorem tagFree_of_suff {a b : List Char} (hp : a <:+ b)
    (h : tagFree b = true) : tagFree a = true := by
  rcases hp with ⟨t, ht⟩
  rw [← ht] at h
  exact tagFree_append_right h

theorem stripEnd_pref (t : List Char) : stripEnd t <+: t := by
  have h : t.reverse.dropWhile pyWs <:+ t.reverse := List.dropWhile_suffix pyWs
  have := List.reverse_prefix.mpr h
  simpa [stripEnd] using this

theorem tagFree_pyStrip {l : List Char} (h : tagFree l = true) :
    tagFree (pyStrip l) = true := by
  rw [pyStrip]
  exact tagFree_of_pref (stripEnd_pref _)
    (tagFree_of_suff (List.dropWhile_suffix pyWs) h)

/-- The character U+00A0 (non-breaking space). -/
def nbspChar : Char := Char.ofNat 160

/-- Python `value.replace(" ", " ")`, applied characterwise. -/
def deNbsp (c : Char) : Char := if c = nbspChar then ' ' else c

theorem deNbsp_eq_lt {c : Char} : deNbsp c = '<' ↔ c = '<' := by
  rw [deNbsp]
  by_cases h : c = nbspChar
  · rw [if_pos h]
    constructor
    · intro habs
      exact absurd habs (by decide)
    · intro habs
      rw [h] at habs
      exact absurd habs (by decide)
  · rw [if_neg h]

theorem deNbsp_eq_gt {c : Char} : deNbsp c = '>' ↔ c = '>' := by
  rw [deNbsp]
  by_cases h : c = nbspChar
  · rw [if_pos h]
    constructor
    · intro habs
      exact absurd habs (by decide)
    · intro habs
      rw [h] at habs
      exact absurd habs (by decide)
  · rw [if_neg h]

theorem tagFree_map_deNbsp {l : List Char} (h : tagFree l = true) :
    tagFree (l.map deNbsp) = true := by
  induction l with
  | nil => exact tagFree_nil
  | cons c rest ih =>
    rw [List.map_cons, tagFree_cons, Bool.and_eq_true]
    rw [tagFree_cons, Bool.and_eq_true] at h
    refine ⟨?_, ih h.2⟩
    by_cases hc : deNbsp c = '<'
    · rw [if_pos hc]
      rw [if_pos (deNbsp_eq_lt.mp hc)] at h
      rcases noTagAt_cases h.1 with h1 | ⟨r, h2⟩ | h3
      · rw [h1]
        exact noTagAt_of_nil
      · rw [h2, List.map_cons, show deNbsp '>' = '>' by decide]
        exact noTagAt_of_gt
      · refine noTagAt_of_not_mem ?_
        intro hmem
        rcases List.mem_map.mp hmem with ⟨a, ha, haeq⟩
        exact h3 (deNbsp_eq_gt.mp haeq ▸ ha)
    · rw [if_neg hc]

theorem tagFree_collapseWs {l : List Char} (h : tagFree l = true) :
    tagFree (collapseWs l) = true := by
  induction l using collapseWs.induct with
  | case1 => rw [collapseWs_nil]; exact tagFree_nil
  | case2 c rest hc ih =>
    rw [collapseWs_cons_ws hc, tagFree_cons, Bool.and_eq_true,
      if_neg (by decide)]
    exact ⟨rfl, ih (tagFree_of_suff (List.dropWhile_suffix pyWs)
      (tagFree_cons_tail h))⟩
  | case3 c rest hc ih =>
    have hc' : pyWs c = false := by simpa using hc
    rw [collapseWs_cons_nonws hc', tagFree_cons, Bool.and_eq_true]
    rw [tagFree_cons, Bool.and_eq_true] at h
    refine ⟨?_, ih h.2⟩
    by_cases hlt : c = '<'
    · rw [if_pos hlt]
      rw [if_pos hlt] at h
      rcases noTagAt_cases h.1 with h1 | ⟨r, h2⟩ | h3
      · rw [h1, collapseWs_nil]
        exact noTagAt_of_nil
      · rw [h2, collapseWs_cons_nonws (by decide)]
        exact noTagAt_of_gt
      · refine noTagAt_of_not_mem ?_
        intro hmem
        rcases mem_collapseWs hmem with h4 | h5
        · exact absurd h4 (by decide)
        · exact h3 h5
    · rw [if_neg hlt]

/-! The normalizer `strip_html` of rag_index.py and claim C9. -/

/-- Python `strip_html(value)`: falsy input returns `""`; otherwise remove all
matches of `<[^>]+>`, replace U+00A0 by spaces, collapse whitespace runs to a
single space, and strip. -/
def strip_html (v : List Char) : List Char :=
  if v = [] then [] else pyStrip (collapseWs ((removeTags v).map deNbsp))

/-- Python `strip_html` on an optional string: `None` is falsy and yields `""`
(the `if not value` guard). -/
def strip_html_opt : Option (List Char) → List Char
  | none => []
  | some v => strip_html v

theorem tagFree_strip_html (v : List Char) : tagFree (strip_html v) = true := by
  rw [strip_html]
  by_cases h : v = []
  · rw [if_pos h]
    exact tagFree_nil
  · rw [if_neg h]
    exact tagFree_pyStrip (tagFree_collapseWs
      (tagFree_map_deNbsp (tagFree_removeTags v)))

theorem pyStrip_subset {l : List Char} {a : Char} (h : a ∈ pyStrip l) :
    a ∈ l := by
  rcases stripEnd_pref (l.dropWhile pyWs) with ⟨t, ht⟩
  rw [pyStrip] at h
  have h1 : a ∈ l.dropWhile pyWs := by
    rw [← ht]
    exact List.mem_append_left t h
  exact (List.dropWhile_sublist pyWs).subset h1

theorem nbsp_not_mem_strip_html (v : List Char) : nbspChar ∉ strip_html v := by
  rw [strip_html]
  by_cases h : v = []
  · rw [if_pos h]
    simp
  · rw [if_neg h]
    intro hmem
    have h1 := pyStrip_subset hmem
    rcases mem_collapseWs h1 with h2 | h3
    · exact absurd h2 (by decide)
    · rcases List.mem_map.mp h3 with ⟨a, _, haeq⟩
      rw [deNbsp] at haeq
      by_cases ha : a = nbspChar
      · rw [if_pos ha] at haeq
        exact absurd haeq (by decide)
      · rw [if_neg ha] at haeq
        exact ha haeq

theorem map_deNbsp_id {l : List Char} (h : nbspChar ∉ l) :
    l.map deNbsp = l := by
  induction l with
  | nil => rfl
  | cons c rest ih =>
    have hne : c ≠ nbspChar := by
      intro hc
      exact h (hc ▸ List.mem_cons_self c rest)
    rw [List.map_cons, deNbsp, if_neg hne,
      ih (fun hmem => h (List.mem_cons_of_mem c hmem))]

theorem pyStrip_collapseWs_strip_html (v : List Char) :
    pyStrip (collapseWs (strip_html v)) = strip_html v := by
  by_cases h : v = []
  · rw [h, show strip_html [] = [] by rw [strip_html]; rw [if_pos rfl]]
    rw [collapseWs_nil, pyStrip_nil]
  · rw [show strip_html v = pyStrip (collapseWs ((removeTags v).map deNbsp)) by
      rw [strip_html, if_neg h]]
    rw [pyStrip_collapseWs, pyStrip_collapseWs, pyWords_joinSp_pyWords]

/-- C9: the text normalizer is idempotent and total on empty or missing input:
`strip_html (strip_html s) = strip_html s` for every string `s`, and empty or
missing (`None`) input yields the empty string. -/
theorem C9_strip_html_idempotent :
    (∀ s : List Char, strip_html (strip_html s) = strip_html s) ∧
    strip_html [] = [] ∧ strip_html_opt none = [] := by
  refine ⟨?_, by rw [strip_html]; rw [if_pos rfl], rfl⟩
  intro s
  by_cases hw : strip_html s = []
  · rw [hw, strip_html]
    rw [if_pos rfl]
  · rw [show strip_html (strip_html s) =
      pyStrip (collapseWs ((removeTags (strip_html s)).map deNbsp)) by
        rw [strip_html, if_neg hw]]
    rw [removeTags_eq_self (tagFree_strip_html s),
      map_deNbsp_id (nbsp_not_mem_strip_html s),
      pyStrip_collapseWs_strip_html]

/-! The character-window chunker `simple_chunk` of rag_index.py. -/

/-- Python `text.rfind(". ", start, fin)`: the largest index `i` with
`start ≤ i` and a full match of `". "` inside `text[start:fin]`
(`i + 2 ≤ min fin len`, mirroring Python clamping of the end bound);
`none` models the return value -1. -/
def rfindDS (t : List Char) (start fin : Nat) : Option Nat :=
  ((List.range t.length).filter (fun i => decide (start ≤ i) &&
    decide (i + 2 ≤ min fin t.length) && decide (t.getD i ' ' = '.') &&
    decide (t.getD (i + 1) ' ' = ' '))).getLast?

/-- The cut position of one iteration of simple_chunk:
`end = min(len(text), start + max_chars)`;
`cut = text.rfind(". ", start, end)`;
`if cut == -1 or cut <= start + 0.5 * max_chars: cut = end`.
Over the integers the float comparison `cut <= start + 0.5 * max_chars` is
exactly `2 * cut ≤ 2 * start + max_chars`. -/
def scCut (t : List Char) (ma start : Nat) : Nat :=
  let fin := min t.length (start + ma)
  match rfindDS t start fin with
  | none => fin
  | some c => if 2 * c ≤ 2 * start + ma then fin else c

/-- The (start, cut) windows visited by the while-loop of simple_chunk.  The
next start is Python `max(cut - overlap, start + 1)`; when `cut < overlap`
Python's `cut - overlap` is negative and the max picks `start + 1`, exactly as
the ℕ truncated subtraction does here because `start + 1 ≥ 1`. -/
def scWindows (t : List Char) (ma ov start : Nat) : List (Nat × Nat) :=
  if h : start < t.length then
    (start, scCut t ma start) ::
      scWindows t ma ov (max (scCut t ma start - ov) (start + 1))
  else []
termination_by t.length - start
decreasing_by
  have h1 : start + 1 ≤ max (scCut t ma start - ov) (start + 1) :=
    Nat.le_max_right _ _
  omega

/-- Python `simple_chunk(text, max_chars, overlap)` of rag_index.py: strip the
text; empty → no chunks; text within `max_chars` → a single chunk; otherwise
walk the windows, appending each nonempty stripped slice `text[start:cut]`
(appending the nonempty stripped slices in loop order is the map-and-filter
below). -/
def simple_chunk (text : List Char) (ma ov : Nat) : List (List Char) :=
  let t := pyStrip text
  if t = [] then []
  else if t.length ≤ ma then [t]
  else ((scWindows t ma ov 0).map (fun w => pyStrip (pySlice t w.1 w.2))).filter
    (fun ch => !ch.isEmpty)

/-- Concatenation of the windows after dropping, from each, the declared
overlap with its predecessor: positions of window `(s, c)` before the previous
cut `prev` are the shared prefix, the remainder is `t[prev:c]`. -/
def overlapDedup (t : List Char) : Nat → List (Nat × Nat) → List Char
  | _, [] => []
  | prev, (s, c) :: ws => pySlice t (max s prev) c ++ overlapDedup t c ws

theorem scWindows_nil {t : List Char} {ma ov start : Nat}
    (h : ¬start < t.length) : scWindows t ma ov start = [] := by
  rw [scWindows]
  simp [h]

theorem scWindows_cons {t : List Char} {ma ov start : Nat}
    (h : start < t.length) : scWindows t ma ov start =
      (start, scCut t ma start) ::
        scWindows t ma ov (max (scCut t ma start - ov) (start + 1)) := by
  rw [scWindows]
  simp [h]

theorem rfindDS_spec {t : List Char} {start fin c : Nat}
    (h : rfindDS t start fin = some c) :
    start ≤ c ∧ c + 2 ≤ min fin t.length := by
  have hmem := List.mem_of_getLast?_eq_some h
  have hf := (List.mem_filter.mp hmem).2
  simp only [Bool.and_eq_true, decide_eq_true_iff] at hf
  exact ⟨hf.1.1.1, hf.1.1.2⟩

theorem scCut_gt {t : List Char} {ma start : Nat} (hs : start < t.length)
    (hma : 1 ≤ ma) : start < scCut t ma start := by
  rw [scCut]
  cases hr : rfindDS t start (min t.length (start + ma)) with
  | none =>
    simp only []
    omega
  | some c =>
    simp only []
    by_cases hhalf : 2 * c ≤ 2 * start + ma
    · rw [if_pos hhalf]
      omega
    · rw [if_neg hhalf]
      omega

theorem scCut_le {t : List Char} {ma start : Nat} :
    scCut t ma start ≤ min t.length (start + ma) := by
  rw [scCut]
  cases hr : rfindDS t start (min t.length (start + ma)) with
  | none => simp only []; omega
  | some c =>
    simp only []
    have := rfindDS_spec hr
    by_cases hhalf : 2 * c ≤ 2 * start + ma
    · rw [if_pos hhalf]
    · rw [if_neg hhalf]
      omega

theorem scCut_mono {t : List Char} {ma ov start s' : Nat}
    (hov : 2 * ov ≤ ma) (hs' : s' = max (scCut t ma start - ov) (start + 1)) :
    scCut t ma start ≤ scCut t ma s' := by
  have hub := @scCut_le t ma start
  have hlow : scCut t ma start ≤ s' + ov := by omega
  conv_rhs => rw [scCut]
  cases hr : rfindDS t s' (min t.length (s' + ma)) with
  | none =>
    simp only []
    omega
  | some c =>
    simp only []
    have hspec := rfindDS_spec hr
    by_cases hhalf : 2 * c ≤ 2 * s' + ma
    · rw [if_pos hhalf]
      omega
    · rw [if_neg hhalf]
      omega

theorem scCut_last {t : List Char} {ma ov start : Nat} (hs : start < t.length)
    (hma : 1 ≤ ma)
    (hstop : ¬ max (scCut t ma start - ov) (start + 1) < t.length) :
    scCut t ma start = t.length := by
  have hub := @scCut_le t ma start
  by_cases hcase : scCut t ma start - ov ≥ t.length
  · omega
  · have hs1 : start + 1 ≥ t.length := by omega
    have hstart : start = t.length - 1 := by omega
    rw [scCut]
    have hfin : min t.length (start + ma) = t.length := by omega
    rw [hfin]
    cases hr : rfindDS t start t.length with
    | none => simp only []
    | some c =>
      simp only []
      have hspec := rfindDS_spec hr
      by_cases hhalf : 2 * c ≤ 2 * start + ma
      · rw [if_pos hhalf]
      · rw [if_neg hhalf]
        omega

theorem overlapDedup_cons {t : List Char} {prev s c : Nat}
    {ws : List (Nat × Nat)} : overlapDedup t prev ((s, c) :: ws) =
      pySlice t (max s prev) c ++ overlapDedup t c ws := rfl

theorem overlapDedup_scWindows {t : List Char} {ma ov : Nat} (hma : 1 ≤ ma)
    (hov : 2 * ov ≤ ma) :
    ∀ start, start < t.length → ∀ prev, start ≤ prev →
      prev ≤ scCut t ma start →
      overlapDedup t prev (scWindows t ma ov start) =
        pySlice t prev t.length := by
  intro start
  induction start using scWindows.induct t ma ov with
  | case1 x hx ih =>
    intro _ prev hp1 hp2
    rw [scWindows_cons hx, overlapDedup_cons, Nat.max_eq_right hp1]
    have hgt := scCut_gt hx hma
    have hub := @scCut_le t ma x
    by_cases hnext : max (scCut t ma x - ov) (x + 1) < t.length
    · have hrest := ih hnext (scCut t ma x) (by omega)
        (scCut_mono hov rfl)
      rw [hrest]
      exact pySlice_append_pySlice t hp2 (by omega)
    · rw [scWindows_nil hnext, scCut_last hx hma hnext]
      rw [scCut_last hx hma hnext] at hp2
      simp [overlapDedup]
  | case2 x hx =>
    intro hlt
    exact absurd hlt hx

theorem scWindows_mem_spec {t : List Char} {ma ov : Nat} :
    ∀ start, ∀ w ∈ scWindows t ma ov start,
      w.1 < t.length ∧ w.2 = scCut t ma w.1 := by
  intro start
  induction start using scWindows.induct t ma ov with
  | case1 x hx ih =>
    intro w hw
    rw [scWindows_cons hx] at hw
    rcases List.mem_cons.mp hw with h1 | h2
    · rw [h1]
      exact ⟨hx, rfl⟩
    · exact ih w h2
  | case2 x hx =>
    intro w hw
    rw [scWindows_nil hx] at hw
    simp at hw

theorem scWindows_chain (t : List Char) (ma ov : Nat) :
    ∀ start, List.Chain'
      (fun p q : Nat × Nat =>
        q.1 = max (p.2 - ov) (p.1 + 1) ∧ p.1 < q.1 ∧ p.2 - q.1 ≤ ov)
      (scWindows t ma ov start) := by
  intro start
  induction start using scWindows.induct t ma ov with
  | case1 x hx ih =>
    rw [scWindows_cons hx]
    refine List.chain'_cons'.mpr ⟨?_, ih⟩
    intro y hy
    by_cases hnext : max (scCut t ma x - ov) (x + 1) < t.length
    · rw [scWindows_cons hnext] at hy
      simp only [List.head?_cons, Option.mem_def, Option.some.injEq] at hy
      rw [← hy]
      refine ⟨rfl, by omega, by omega⟩
    · rw [scWindows_nil hnext] at hy
      simp at hy
  | case2 x hx =>
    rw [scWindows_nil hx]
    exact List.chain'_nil

theorem scWindows_length_le (t : List Char) (ma ov : Nat) :
    ∀ start, (scWindows t ma ov start).length ≤ t.length - start := by
  intro start
  induction start using scWindows.induct t ma ov with
  | case1 x hx ih =>
    rw [scWindows_cons hx]
    simp only [List.length_cons]
    omega
  | case2 x hx =>
    rw [scWindows_nil hx]
    simp

theorem simple_chunk_mem {text : List Char} {ma ov : Nat} {ch : List Char}
    (h : ch ∈ simple_chunk text ma ov) :
    ch = pyStrip text ∨ ∃ w ∈ scWindows (pyStrip text) ma ov 0,
      ch = pyStrip (pySlice (pyStrip text) w.1 w.2) := by
  rw [simple_chunk] at h
  by_cases h1 : pyStrip text = []
  · rw [if_pos h1] at h
    simp at h
  · rw [if_neg h1] at h
    by_cases h2 : (pyStrip text).length ≤ ma
    · rw [if_pos h2] at h
      rcases List.mem_singleton.mp h with h3
      exact Or.inl h3
    · rw [if_neg h2] at h
      have h3 := List.mem_of_mem_filter h
      rcases List.mem_map.mp h3 with ⟨w, hw, hweq⟩
      exact Or.inr ⟨w, hw, hweq.symm⟩

theorem simple_chunk_length_le (text : List Char) (ma ov : Nat) :
    ∀ ch ∈ simple_chunk text ma ov, ch.length ≤ ma := by
  intro ch h
  rw [simple_chunk] at h
  by_cases h1 : pyStrip text = []
  · rw [if_pos h1] at h
    simp at h
  · rw [if_neg h1] at h
    by_cases h2 : (pyStrip text).length ≤ ma
    · rw [if_pos h2] at h
      rw [List.mem_singleton.mp h]
      exact h2
    · rw [if_neg h2] at h
      have h3 := List.mem_of_mem_filter h
      rcases List.mem_map.mp h3 with ⟨w, hw, hweq⟩
      rcases scWindows_mem_spec 0 w hw with ⟨hwlt, hwcut⟩
      have hub : w.2 ≤ min (pyStrip text).length (w.1 + ma) := by
        rw [hwcut]
        exact scCut_le
      calc ch.length ≤ (pySlice (pyStrip text) w.1 w.2).length := by
            rw [← hweq]
            exact pyStrip_length_le _
        _ ≤ w.2 - w.1 := length_pySlice_le _ _ _
        _ ≤ ma := by omega

/-- C2 conjunct 1 in closed form: the strip of the input text is exactly
reconstructed from the windows after dropping declared overlaps. -/
theorem overlapDedup_simple_chunk {text : List Char} {ma ov : Nat}
    (hma : 1 ≤ ma) (hov : 2 * ov ≤ ma) :
    overlapDedup (pyStrip text) 0 (scWindows (pyStrip text) ma ov 0) =
      pyStrip text := by
  by_cases h0 : 0 < (pyStrip text).length
  · rw [overlapDedup_scWindows hma hov 0 h0 0 (Nat.le_refl 0)
      (Nat.le_of_lt (scCut_gt h0 hma)), pySlice_zero_length]
  · have : pyStrip text = [] := by
      cases hp : pyStrip text with
      | nil => rfl
      | cons a b => rw [hp] at h0; simp at h0
    rw [this, scWindows_nil (by simp)]
    rfl

/-! The sentence segmenter and `chunk_text_range` of json_to_pdf.py. -/

/-- Python `re.sub(r"\s*\n\s*", " ", t)`: a match is a maximal whitespace run
containing at least one newline (the greedy `\s*` on both sides of the `\n`
extends every match to the whole run); each such run becomes one space; runs
without a newline are untouched. -/
def nlSub : List Char → List Char
  | [] => []
  | c :: rest =>
    if pyWs c then
      (if '\n' ∈ c :: rest.takeWhile pyWs then [' ']
        else c :: rest.takeWhile pyWs) ++ nlSub (rest.dropWhile pyWs)
    else c :: nlSub rest
termination_by t => t.length
decreasing_by
  · have h1 : (rest.dropWhile pyWs).length ≤ rest.length :=
      (List.dropWhile_sublist pyWs).length_le
    simp only [List.length_cons]
    omega
  · simp [Nat.lt_succ_self]

/-- Python `re.split(r"(?<=[\.!?])\s+", t)`: scan left to right; after a `.`,
`!` or `?` followed by whitespace, end the current part and consume the
(greedy, hence maximal) whitespace run.  `acc` is the current part, reversed. -/
def sentSplit : List Char → List Char → List (List Char)
  | acc, [] => [acc.reverse]
  | acc, c :: rest =>
    if decide (c = '.' ∨ c = '!' ∨ c = '?') && pyWs (rest.headD 'x') then
      (c :: acc).reverse :: sentSplit [] (rest.dropWhile pyWs)
    else sentSplit (c :: acc) rest
termination_by _ t => t.length
decreasing_by
  · have h1 : (rest.dropWhile pyWs).length ≤ rest.length :=
      (List.dropWhile_sublist pyWs).length_le
    simp only [List.length_cons]
    omega
  · simp [Nat.lt_succ_self]

/-- Python `split_into_sentences(text)` of json_to_pdf.py: empty → `[]`;
else normalize newlines, strip, split after sentence punctuation, and return
the stripped nonempty parts. -/
def split_into_sentences (t : List Char) : List (List Char) :=
  if t = [] then []
  else ((sentSplit [] (pyStrip (nlSub t))).map pyStrip).filter
    (fun p => !p.isEmpty)

/-- One pass of the sentence-accumulation loop of `chunk_text_range`, over the
state (chunks so far, sentences of the current chunk, `current_len`). -/
def ctrLoop (ma : Nat) :
    List (List Char) → List (List Char) × List (List Char) × Nat →
      List (List Char) × List (List Char) × Nat
  | [], st => st
  | sent :: rest, (chunks, current, clen) =>
    let s := pyStrip sent
    if s.isEmpty then ctrLoop ma rest (chunks, current, clen)
    else
      let add := s.length + (if current.isEmpty then 0 else 1)
      if !current.isEmpty && decide (ma < clen + add) then
        ctrLoop ma rest (chunks ++ [joinSp current], [s], s.length)
      else ctrLoop ma rest (chunks, current ++ [s], clen + add)

/-- The tail handling of `chunk_text_range`: flush `current`; an undersized
final chunk is merged into the previous chunk when the merge stays within
`2 * max_chars`. -/
def ctrTail (mi ma : Nat) (chunks current : List (List Char)) :
    List (List Char) :=
  if current.isEmpty then chunks
  else if (joinSp current).length < mi ∧ ¬chunks.isEmpty then
    match chunks.getLast? with
    | some prev =>
      if (prev ++ ' ' :: joinSp current).length ≤ ma * 2 then
        chunks.dropLast ++ [prev ++ ' ' :: joinSp current]
      else chunks ++ [joinSp current]
    | none => chunks ++ [joinSp current]
  else chunks ++ [joinSp current]

/-- The chunks of `chunk_text_range` before the final oversize fix-up. -/
def ctrPre (t : List Char) (mi ma : Nat) : List (List Char) :=
  let st := ctrLoop ma (split_into_sentences t) ([], [], 0)
  ctrTail mi ma st.1 st.2.1

/-- The hard-split fallback: cut `c` into `max_chars`-sized pieces by
character offset, stripping each piece.  (For `max_chars = 0` the Python loop
would not terminate; `max 1` keeps the model total there and coincides with
Python for every `max_chars ≥ 1`.) -/
def hardSplit (ma : Nat) (c : List Char) : List (List Char) :=
  if c.isEmpty then []
  else pyStrip (c.take (max 1 ma)) :: hardSplit ma (c.drop (max 1 ma))
termination_by c.length
decreasing_by
  rename_i hne
  rw [List.isEmpty_iff] at hne
  have h1 : 0 < c.length := List.length_pos.mpr hne
  simp only [List.length_drop]
  omega

/-- Python `chunk_text_range(text, min_chars, max_chars)` of json_to_pdf.py:
the accumulated chunks, oversize ones hard-split, all stripped, empties
dropped. -/
def chunk_text_range (t : List Char) (mi ma : Nat) : List (List Char) :=
  (((ctrPre t mi ma).flatMap
    (fun c => if c.length ≤ ma then [c] else hardSplit ma c)).map pyStrip).filter
    (fun f => !f.isEmpty)

theorem nlSub_nil : nlSub [] = [] := by
  rw [nlSub]

theorem nlSub_cons_ws {c : Char} {rest : List Char} (h : pyWs c = true) :
    nlSub (c :: rest) =
      (if '\n' ∈ c :: rest.takeWhile pyWs then [' ']
        else c :: rest.takeWhile pyWs) ++ nlSub (rest.dropWhile pyWs) := by
  rw [nlSub]
  simp [h]

theorem nlSub_cons_nonws {c : Char} {rest : List Char} (h : pyWs c = false) :
    nlSub (c :: rest) = c :: nlSub rest := by
  rw [nlSub]
  simp [h]

theorem nlSub_nonws_append {u z : List Char}
    (h : ∀ x ∈ u, pyWs x = false) : nlSub (u ++ z) = u ++ nlSub z := by
  induction u with
  | nil => simp
  | cons c u' ih =>
    rw [List.cons_append, nlSub_cons_nonws (h c (List.mem_cons_self c u')),
      ih (fun a ha => h a (List.mem_cons_of_mem c ha))]
    rfl

theorem pyWords_word_append {w b : List Char} (hwne : w ≠ [])
    (hw : ∀ x ∈ w, pyWs x = false)
    (hb : b = [] ∨ pyWs (b.headD 'x') = true) :
    pyWords (w ++ b) = w :: pyWords b := by
  cases w with
  | nil => exact absurd rfl hwne
  | cons c w' =>
    have hw' : ∀ x ∈ w', (fun d => !pyWs d) x = true := by
      intro x hx
      simp [hw x (List.mem_cons_of_mem c hx)]
    have htkb : b.takeWhile (fun d => !pyWs d) = [] := by
      rcases hb with h1 | h2
      · rw [h1]
        rfl
      · cases b with
        | nil => rfl
        | cons d bs =>
          rw [List.takeWhile_cons_of_neg]
          simp only [List.headD_cons] at h2
          simp [h2]
    have hdrb : b.dropWhile (fun d => !pyWs d) = b := by
      rcases hb with h1 | h2
      · rw [h1]
        rfl
      · cases b with
        | nil => rfl
        | cons d bs =>
          rw [List.dropWhile_cons_of_neg]
          simp only [List.headD_cons] at h2
          simp [h2]
    rw [List.cons_append,
      pyWords_cons_nonws (hw c (List.mem_cons_self c w')),
      List.takeWhile_append_of_pos hw', List.dropWhile_append_of_pos hw',
      htkb, hdrb, List.append_nil]

theorem nlSub_ws_head {c : Char} {rest : List Char} (h : pyWs c = true) :
    nlSub (c :: rest) ≠ [] ∧ pyWs ((nlSub (c :: rest)).headD 'x') = true := by
  rw [nlSub_cons_ws h]
  by_cases hnl : '
' ∈ c :: rest.takeWhile pyWs
  · rw [if_pos hnl]
    exact ⟨by simp, by simp [pyWs_space]⟩
  · rw [if_neg hnl]
    exact ⟨by simp, by simp [h]⟩

theorem nlSub_words_aux : ∀ n, ∀ t : List Char, t.length ≤ n →
    pyWords (nlSub t) = pyWords t := by
  intro n
  induction n with
  | zero =>
    intro t ht
    have : t = [] := List.eq_nil_of_length_eq_zero (by omega)
    rw [this, nlSub_nil]
  | succ n ih =>
    intro t ht
    cases t with
    | nil => rw [nlSub_nil]
    | cons c rest =>
      by_cases h : pyWs c = true
      · rw [nlSub_cons_ws h]
        have hrun : ∀ x ∈ (if '
' ∈ c :: rest.takeWhile pyWs then [' ']
            else c :: rest.takeWhile pyWs), pyWs x = true := by
          intro x hx
          by_cases hnl : '
' ∈ c :: rest.takeWhile pyWs
          · rw [if_pos hnl] at hx
            rcases List.mem_singleton.mp hx with h1
            rw [h1]
            exact pyWs_space
          · rw [if_neg hnl] at hx
            rcases List.mem_cons.mp hx with h1 | h2
            · rw [h1]; exact h
            · exact List.mem_takeWhile_imp h2
        have hlen : (rest.dropWhile pyWs).length ≤ n := by
          have hsub : (rest.dropWhile pyWs).length ≤ rest.length :=
            (List.dropWhile_sublist pyWs).length_le
          simp only [List.length_cons] at ht
          omega
        rw [pyWords_append_wsrun hrun, ih _ hlen, pyWords_dropWhile_ws,
          pyWords_cons_ws h]
      · have h' : pyWs c = false := by simpa using h
        have hsplit : c :: rest =
            (c :: rest.takeWhile (fun d => !pyWs d)) ++
              rest.dropWhile (fun d => !pyWs d) := by
          rw [List.cons_append, List.takeWhile_append_dropWhile]
        have hwall : ∀ x ∈ c :: rest.takeWhile (fun d => !pyWs d),
            pyWs x = false := by
          intro x hx
          rcases List.mem_cons.mp hx with h1 | h2
          · rw [h1]; exact h'
          · simpa using List.mem_takeWhile_imp h2
        have hrhead : rest.dropWhile (fun d => !pyWs d) = [] ∨
            pyWs ((rest.dropWhile (fun d => !pyWs d)).headD 'x') = true := by
          cases hr : rest.dropWhile (fun d => !pyWs d) with
          | nil => exact Or.inl rfl
          | cons d ds =>
            have := dropWhile_head_neg hr
            simp only [List.headD_cons]
            right
            simpa using this
        have hlen : (rest.dropWhile (fun d => !pyWs d)).length ≤ n := by
          have hsub : (rest.dropWhile (fun d => !pyWs d)).length ≤
              rest.length :=
            (List.dropWhile_sublist (fun d => !pyWs d)).length_le
          simp only [List.length_cons] at ht
          omega
        have hnlhead : nlSub (rest.dropWhile (fun d => !pyWs d)) = [] ∨
            pyWs ((nlSub (rest.dropWhile (fun d => !pyWs d))).headD 'x') =
              true := by
          cases hr : rest.dropWhile (fun d => !pyWs d) with
          | nil => exact Or.inl (by rw [nlSub_nil])
          | cons d ds =>
            have hd : pyWs d = true := by
              have := dropWhile_head_neg hr
              simpa using this
            exact Or.inr (nlSub_ws_head hd).2
        rw [hsplit, nlSub_nonws_append hwall,
          pyWords_word_append (by simp) hwall hnlhead,
          pyWords_word_append (by simp) hwall hrhead,
          ih _ hlen]

theorem nlSub_words (t : List Char) : pyWords (nlSub t) = pyWords t :=
  nlSub_words_aux t.length t (Nat.le_refl _)

theorem sentSplit_words_aux : ∀ n (rest acc : List Char), rest.length ≤ n →
    (sentSplit acc rest).flatMap pyWords = pyWords (acc.reverse ++ rest) := by
  intro n
  induction n with
  | zero =>
    intro rest acc hlen
    have : rest = [] := List.eq_nil_of_length_eq_zero (by omega)
    rw [this, sentSplit]
    simp
  | succ n ih =>
    intro rest acc hlen
    cases rest with
    | nil =>
      rw [sentSplit]
      simp
    | cons c rest' =>
      by_cases hcond : (decide (c = '.' ∨ c = '!' ∨ c = '?') &&
          pyWs (rest'.headD 'x')) = true
      · rw [show sentSplit acc (c :: rest') =
            (c :: acc).reverse :: sentSplit [] (rest'.dropWhile pyWs) by
          rw [sentSplit, if_pos hcond]]
        obtain ⟨d, ds, hds⟩ : ∃ d ds, rest' = d :: ds := by
          cases rest' with
          | nil =>
            rw [Bool.and_eq_true] at hcond
            have : pyWs 'x' = true := hcond.2
            exact absurd this (by decide)
          | cons d ds => exact ⟨d, ds, rfl⟩
        have hd : pyWs d = true := by
          rw [Bool.and_eq_true] at hcond
          rw [hds] at hcond
          simpa using hcond.2
        have hlen2 : (rest'.dropWhile pyWs).length ≤ n := by
          have hsub : (rest'.dropWhile pyWs).length ≤ rest'.length :=
            (List.dropWhile_sublist pyWs).length_le
          simp only [List.length_cons] at hlen
          omega
        rw [List.flatMap_cons, ih _ [] hlen2]
        simp only [List.reverse_nil, List.nil_append]
        rw [pyWords_dropWhile_ws, List.reverse_cons, hds,
          show acc.reverse ++ c :: d :: ds =
            (acc.reverse ++ [c]) ++ d :: ds by simp,
          pyWords_append_sep hd, pyWords_cons_ws hd]
      · rw [show sentSplit acc (c :: rest') = sentSplit (c :: acc) rest' by
          rw [sentSplit, if_neg hcond]]
        have hlen2 : rest'.length ≤ n := by
          simp only [List.length_cons] at hlen
          omega
        rw [ih _ (c :: acc) hlen2, List.reverse_cons]
        simp

theorem sentSplit_words (t : List Char) :
    (sentSplit [] t).flatMap pyWords = pyWords t := by
  rw [sentSplit_words_aux t.length t [] (Nat.le_refl _)]
  simp

theorem flatMap_pyWords_map_pyStrip (l : List (List Char)) :
    (l.map pyStrip).flatMap pyWords = l.flatMap pyWords := by
  induction l with
  | nil => simp
  | cons x xs ih =>
    rw [List.map_cons, List.flatMap_cons, List.flatMap_cons, ih,
      pyWords_pyStrip]

theorem flatMap_pyWords_filter (l : List (List Char)) :
    (l.filter (fun p => !p.isEmpty)).flatMap pyWords = l.flatMap pyWords := by
  induction l with
  | nil => simp
  | cons x xs ih =>
    by_cases hx : x.isEmpty = true
    · rw [List.filter_cons_of_neg (by simp [hx]), List.flatMap_cons, ih]
      rw [List.isEmpty_iff] at hx
      rw [hx, pyWords_nil, List.nil_append]
    · rw [List.filter_cons_of_pos (by simp [hx]), List.flatMap_cons,
        List.flatMap_cons, ih]

theorem split_into_sentences_words (t : List Char) :
    (split_into_sentences t).flatMap pyWords = pyWords t := by
  rw [split_into_sentences]
  by_cases h : t = []
  · rw [if_pos h, h, pyWords_nil]
    rfl
  · rw [if_neg h, flatMap_pyWords_filter, flatMap_pyWords_map_pyStrip,
      sentSplit_words, pyWords_pyStrip, nlSub_words]

theorem ctrLoop_nil (ma : Nat)
    (st : List (List Char) × List (List Char) × Nat) :
    ctrLoop ma [] st = st := by
  rw [ctrLoop]

theorem ctrLoop_cons_skip {ma : Nat} {sent : List Char}
    {rest chunks current : List (List Char)} {clen : Nat}
    (h : (pyStrip sent).isEmpty = true) :
    ctrLoop ma (sent :: rest) (chunks, current, clen) =
      ctrLoop ma rest (chunks, current, clen) := by
  rw [ctrLoop]
  simp [h]

theorem ctrLoop_cons_flush {ma : Nat} {sent : List Char}
    {rest chunks current : List (List Char)} {clen : Nat}
    (h : (pyStrip sent).isEmpty = false)
    (h2 : (!current.isEmpty && decide (ma < clen +
      ((pyStrip sent).length + (if current.isEmpty then 0 else 1)))) = true) :
    ctrLoop ma (sent :: rest) (chunks, current, clen) =
      ctrLoop ma rest (chunks ++ [joinSp current], [pyStrip sent],
        (pyStrip sent).length) := by
  rw [Bool.and_eq_true] at h2
  obtain ⟨ha, hb⟩ := h2
  have hcur : current.isEmpty = false := by simpa using ha
  have hne : current ≠ [] := by
    intro hc
    rw [hc] at hcur
    simp at hcur
  have hlt : ma < clen + ((pyStrip sent).length + 1) := by
    have hd := of_decide_eq_true hb
    rw [if_neg (by simp [hcur])] at hd
    exact hd
  rw [ctrLoop]
  simp [h, hne, hlt]

theorem ctrLoop_cons_app {ma : Nat} {sent : List Char}
    {rest chunks current : List (List Char)} {clen : Nat}
    (h : (pyStrip sent).isEmpty = false)
    (h2 : (!current.isEmpty && decide (ma < clen +
      ((pyStrip sent).length + (if current.isEmpty then 0 else 1)))) = false) :
    ctrLoop ma (sent :: rest) (chunks, current, clen) =
      ctrLoop ma rest (chunks, current ++ [pyStrip sent],
        clen + ((pyStrip sent).length + (if current.isEmpty then 0 else 1))) := by
  rw [ctrLoop]
  simp [h]
  intro hne hlt
  exfalso
  have hcur : current.isEmpty = false := by simp [List.isEmpty_iff, hne]
  rw [hcur] at h2
  simp at h2
  rw [if_neg hne] at hlt
  omega

theorem ctrLoop_words (ma : Nat) :
    ∀ (sents chunks current : List (List Char)) (clen : Nat),
      (ctrLoop ma sents (chunks, current, clen)).1.flatMap pyWords ++
        (ctrLoop ma sents (chunks, current, clen)).2.1.flatMap pyWords =
      chunks.flatMap pyWords ++ current.flatMap pyWords ++
        sents.flatMap pyWords := by
  intro sents
  induction sents with
  | nil =>
    intro chunks current clen
    rw [ctrLoop_nil]
    simp
  | cons sent rest ih =>
    intro chunks current clen
    by_cases hskip : (pyStrip sent).isEmpty = true
    · rw [ctrLoop_cons_skip hskip, ih]
      have : pyWords sent = [] := by
        rw [← pyWords_pyStrip, List.isEmpty_iff.mp hskip, pyWords_nil]
      simp [this]
    · have hskip' : (pyStrip sent).isEmpty = false := by
        simpa using hskip
      by_cases hfl : (!current.isEmpty && decide (ma < clen +
          ((pyStrip sent).length +
            (if current.isEmpty then 0 else 1)))) = true
      · rw [ctrLoop_cons_flush hskip' hfl, ih]
        simp only [List.flatMap_append, List.flatMap_cons, List.flatMap_nil,
          List.append_nil, pyWords_joinSp, pyWords_pyStrip]
        simp [List.append_assoc]
      · rw [ctrLoop_cons_app hskip' (by simpa using hfl), ih]
        simp only [List.flatMap_append, List.flatMap_cons, List.flatMap_nil,
          List.append_nil, pyWords_pyStrip]
        simp [List.append_assoc]

theorem ctrTail_words (mi ma : Nat) (chunks current : List (List Char)) :
    (ctrTail mi ma chunks current).flatMap pyWords =
      chunks.flatMap pyWords ++ current.flatMap pyWords := by
  rw [ctrTail]
  by_cases hcur : current.isEmpty = true
  · rw [if_pos hcur, List.isEmpty_iff.mp hcur]
    simp
  · rw [if_neg hcur]
    by_cases hm : (joinSp current).length < mi ∧ ¬chunks.isEmpty = true
    · rw [if_pos hm]
      cases hlast : chunks.getLast? with
      | none =>
        simp only []
        simp [List.flatMap_append, pyWords_joinSp, pyWords_flatMap_self]
      | some prev =>
        simp only []
        rcases List.getLast?_eq_some_iff.mp hlast with ⟨ys, hys⟩
        by_cases hfit : (prev ++ ' ' :: joinSp current).length ≤ ma * 2
        · rw [if_pos hfit, hys, List.dropLast_concat]
          simp only [List.flatMap_append, List.flatMap_cons, List.flatMap_nil,
            List.append_nil, pyWords_append_sep pyWs_space, pyWords_joinSp,
            pyWords_flatMap_self]
          simp [List.append_assoc]
        · rw [if_neg hfit]
          simp [List.flatMap_append, pyWords_joinSp, pyWords_flatMap_self]
    · rw [if_neg hm]
      simp [List.flatMap_append, pyWords_joinSp, pyWords_flatMap_self]

theorem ctrPre_words (t : List Char) (mi ma : Nat) :
    (ctrPre t mi ma).flatMap pyWords = pyWords t := by
  rw [ctrPre, ctrTail_words]
  have h := ctrLoop_words ma (split_into_sentences t) [] [] 0
  simp only [List.flatMap_nil, List.nil_append] at h
  rw [h, split_into_sentences_words]

theorem hardSplit_length_le (ma : Nat) :
    ∀ c, ∀ x ∈ hardSplit ma c, x.length ≤ max 1 ma := by
  intro c
  induction c using hardSplit.induct ma with
  | case1 c hc =>
    rw [hardSplit, if_pos hc]
    intro x hx
    simp at hx
  | case2 c hc ih =>
    rw [hardSplit, if_neg hc]
    intro x hx
    rcases List.mem_cons.mp hx with h1 | h2
    · rw [h1]
      calc (pyStrip (c.take (max 1 ma))).length ≤ (c.take (max 1 ma)).length :=
            pyStrip_length_le _
        _ ≤ max 1 ma := by
            rw [List.length_take]
            exact Nat.min_le_left _ _
    · exact ih x h2

theorem flatMap_congr_mem {α β : Type} {l : List α} {f g : α → List β}
    (h : ∀ a ∈ l, f a = g a) : l.flatMap f = l.flatMap g := by
  induction l with
  | nil => rfl
  | cons a t ih =>
    rw [List.flatMap_cons, List.flatMap_cons, h a (List.mem_cons_self a t),
      ih (fun x hx => h x (List.mem_cons_of_mem a hx))]

/-- C2 for `chunk_text_range`: when the hard-split fallback is not exercised
(no pre-fix chunk exceeds `max_chars`), the produced chunks restore every word
of the input, in order. -/
theorem chunk_text_range_words {t : List Char} {mi ma : Nat}
    (hok : ∀ c ∈ ctrPre t mi ma, c.length ≤ ma) :
    (chunk_text_range t mi ma).flatMap pyWords = pyWords t := by
  rw [chunk_text_range, flatMap_pyWords_filter, flatMap_pyWords_map_pyStrip]
  have hfix : (ctrPre t mi ma).flatMap
      (fun c => if c.length ≤ ma then [c] else hardSplit ma c) =
      ctrPre t mi ma := by
    rw [flatMap_congr_mem (fun c hc => if_pos (hok c hc)),
      flatMap_singleton_of (fun a _ => rfl)]
  rw [hfix, ctrPre_words]

theorem chunk_text_range_length_le {t : List Char} {mi ma : Nat}
    (hma : 1 ≤ ma) : ∀ c ∈ chunk_text_range t mi ma, c.length ≤ ma := by
  intro c hc
  rw [chunk_text_range] at hc
  have h1 := List.mem_of_mem_filter hc
  rcases List.mem_map.mp h1 with ⟨x, hx, hxeq⟩
  rcases List.mem_flatMap.mp hx with ⟨y, hy, hxy⟩
  by_cases hylen : y.length ≤ ma
  · rw [if_pos hylen] at hxy
    rcases List.mem_singleton.mp hxy with h2
    rw [← hxeq, h2]
    calc (pyStrip y).length ≤ y.length := pyStrip_length_le _
      _ ≤ ma := hylen
  · rw [if_neg hylen] at hxy
    have h3 := hardSplit_length_le ma y x hxy
    rw [← hxeq]
    calc (pyStrip x).length ≤ x.length := pyStrip_length_le _
      _ ≤ max 1 ma := h3
      _ = ma := by omega

/-- C2: no silent content loss in chunking.
For the character-window chunker `simple_chunk` (with a positive window and
overlap at most half the window, as in the 900/150 defaults): the window list
reconstructs the stripped input exactly once the declared overlap with the
predecessor window is dropped from each window; every emitted chunk is the
strip of one of those windows (or the whole stripped text in the
single-window case) and never exceeds `max_chars`.  For the sentence
accumulator `chunk_text_range`: whenever the hard-split fallback is not
exercised, the chunks restore every word of the input in order, and every
chunk is within `max_chars` in all cases. -/
theorem C2_chunking_no_content_loss :
    (∀ text ma ov : _, 1 ≤ ma → 2 * ov ≤ ma →
      overlapDedup (pyStrip text) 0 (scWindows (pyStrip text) ma ov 0) =
        pyStrip text) ∧
    (∀ text ma ov : _, ∀ ch ∈ simple_chunk text ma ov, ch.length ≤ ma) ∧
    (∀ text ma ov : _, ∀ ch ∈ simple_chunk text ma ov,
      ch = pyStrip text ∨ ∃ w ∈ scWindows (pyStrip text) ma ov 0,
        ch = pyStrip (pySlice (pyStrip text) w.1 w.2)) ∧
    (∀ text mi ma : _, (∀ c ∈ ctrPre text mi ma, c.length ≤ ma) →
      (chunk_text_range text mi ma).flatMap pyWords = pyWords text) ∧
    (∀ text mi ma : _, 1 ≤ ma → ∀ c ∈ chunk_text_range text mi ma,
      c.length ≤ ma) :=
  ⟨fun _ _ _ hma hov => overlapDedup_simple_chunk hma hov,
   fun text ma ov => simple_chunk_length_le text ma ov,
   fun _ _ _ _ hch => simple_chunk_mem hch,
   fun _ _ _ hok => chunk_text_range_words hok,
   fun _ _ _ hma => chunk_text_range_length_le hma⟩

set_option maxHeartbeats 1000000 in
/-- Witness for C2 at concrete inputs, discharging each hypothesis. -/
theorem C2_chunking_no_content_loss_witness :
    (overlapDedup (pyStrip ("ab. cdef".toList)) 0
        (scWindows (pyStrip ("ab. cdef".toList)) 4 1 0) =
      pyStrip ("ab. cdef".toList)) ∧
    (∀ ch ∈ simple_chunk ("ab. cdef".toList) 4 1, ch.length ≤ 4) ∧
    ((chunk_text_range ("Hi. Yo".toList) 2 5).flatMap pyWords =
      pyWords ("Hi. Yo".toList)) ∧
    (∀ c ∈ chunk_text_range ("Hi. Yo".toList) 2 5, c.length ≤ 5) := by
  have hpre : ctrPre ("Hi. Yo".toList) 2 5 = ["Hi.".toList, "Yo".toList] := by
    simp [ctrPre, ctrTail, ctrLoop, split_into_sentences, nlSub, sentSplit,
      pyStrip, stripEnd, pyWs, joinSp]
  refine ⟨C2_chunking_no_content_loss.1 ("ab. cdef".toList) 4 1 (by decide)
      (by decide),
    C2_chunking_no_content_loss.2.1 ("ab. cdef".toList) 4 1,
    C2_chunking_no_content_loss.2.2.2.1 ("Hi. Yo".toList) 2 5 ?_,
    C2_chunking_no_content_loss.2.2.2.2 ("Hi. Yo".toList) 2 5 (by decide)⟩
  rw [hpre]
  decide

/-- C8 (amended): in the character-window loop the next window start is
`max(cut − overlap, start + 1)` — not always `cut − overlap` — so the start
strictly increases on every iteration, the loop runs at most `length` times
(and, the Lean function being total, terminates on every finite input), and
consecutive windows share at most `overlap` characters of trailing context
(`cut − next start ≤ overlap`). -/
theorem C8_window_progress (t : List Char) (ma ov : Nat) :
    List.Chain'
      (fun p q : Nat × Nat =>
        q.1 = max (p.2 - ov) (p.1 + 1) ∧ p.1 < q.1 ∧ p.2 - q.1 ≤ ov)
      (scWindows t ma ov 0) ∧
    (scWindows t ma ov 0).length ≤ t.length :=
  ⟨scWindows_chain t ma ov 0, by
    have h := scWindows_length_le t ma ov 0
    omega⟩

set_option maxHeartbeats 1000000 in
set_option maxRecDepth 4000 in
/-- C8 counterexample: on seven identical characters with `max_chars = 5`,
`overlap = 3`, the windows are (0,5), (2,7), (4,7), (5,7), (6,7); at the
transition (4,7) → (5,7) the next start is 5 ≠ 7 − 3 = cut − overlap, so the
next window does not always start at (cut position − overlap). -/
theorem C8_window_progress_counterexample :
    scWindows ['a', 'a', 'a', 'a', 'a', 'a', 'a'] 5 3 0 =
      [(0, 5), (2, 7), (4, 7), (5, 7), (6, 7)] ∧
    ¬ List.Chain' (fun p q : Nat × Nat => q.1 = p.2 - 3)
      (scWindows ['a', 'a', 'a', 'a', 'a', 'a', 'a'] 5 3 0) := by
  have hev : scWindows ['a', 'a', 'a', 'a', 'a', 'a', 'a'] 5 3 0 =
      [(0, 5), (2, 7), (4, 7), (5, 7), (6, 7)] := by
    simp [scWindows_cons, scWindows_nil, scCut,
      (by decide : rfindDS ['a', 'a', 'a', 'a', 'a', 'a', 'a'] 0 5 = none),
      (by decide : rfindDS ['a', 'a', 'a', 'a', 'a', 'a', 'a'] 2 7 = none),
      (by decide : rfindDS ['a', 'a', 'a', 'a', 'a', 'a', 'a'] 4 7 = none),
      (by decide : rfindDS ['a', 'a', 'a', 'a', 'a', 'a', 'a'] 5 7 = none),
      (by decide : rfindDS ['a', 'a', 'a', 'a', 'a', 'a', 'a'] 6 7 = none)]
  refine ⟨hev, ?_⟩
  rw [hev]
  intro hch
  rw [List.chain'_cons, List.chain'_cons, List.chain'_cons] at hch
  exact absurd hch.2.2.1 (by decide)

/-! The bounded bullet-merge chunker `chunk_to_range` of json_to_pdf.py. -/

/-- Phase 1 of `chunk_to_range`: walk the words, greedily accumulating
`current` while the tentative join stays within `max_len`; on overflow flush
`current` (when nonempty) and restart from the overflowing word. -/
def ctrP1 (ma : Nat) : List (List Char) → List (List Char) → List (List Char)
  | current, [] => if current.isEmpty then [] else [joinSp current]
  | current, w :: ws =>
    if (pyStrip (joinSp (current ++ [w]))).length ≤ ma then
      ctrP1 ma (current ++ [w]) ws
    else (if current.isEmpty then [] else [joinSp current]) ++ ctrP1 ma [w] ws

/-- Phase 2 of `chunk_to_range`: an item below `min_len` is merged with its
successor when the combination stays within `2 * max_len`. -/
def ctrMerge (mi ma : Nat) : List (List Char) → List (List Char)
  | [] => []
  | [c] => [c]
  | c :: d :: rest =>
    if c.length < mi ∧ (c ++ ' ' :: d).length ≤ ma * 2 then
      (c ++ ' ' :: d) :: ctrMerge mi ma rest
    else c :: ctrMerge mi ma (d :: rest)

/-- Python `chunk_to_range(text, min_len, max_len)` of json_to_pdf.py. -/
def chunk_to_range (text : List Char) (mi ma : Nat) : List (List Char) :=
  ctrMerge mi ma (ctrP1 ma [] (pyWords text))

theorem joinSp_ne_nil {q : List Char} {rest : List (List Char)} (hq : q ≠ []) :
    joinSp (q :: rest) ≠ [] := by
  cases rest with
  | nil => exact hq
  | cons r rs =>
    rw [joinSp_cons_ne (List.cons_ne_nil r rs)]
    simp [hq]

theorem joinSp_head_decomp (q : List Char) (rest : List (List Char)) :
    ∃ X, joinSp (q :: rest) = q ++ X := by
  cases rest with
  | nil => exact ⟨[], by simp [joinSp]⟩
  | cons r rs => exact ⟨' ' :: joinSp (r :: rs), rfl⟩

theorem dropWhile_all_neg {p : Char → Bool} {l : List Char}
    (h : ∀ c ∈ l, p c = false) : l.dropWhile p = l := by
  cases l with
  | nil => rfl
  | cons c rest =>
    exact List.dropWhile_cons_of_neg (by simp [h c (List.mem_cons_self c rest)])

theorem pyStrip_all_nonws {l : List Char} (h : ∀ c ∈ l, pyWs c = false) :
    pyStrip l = l := by
  rw [pyStrip, dropWhile_all_neg h, stripEnd_all_nonws h]

theorem pyStrip_joinSp_words {ps : List (List Char)}
    (hps : ∀ p ∈ ps, p ≠ [] ∧ ∀ c ∈ p, pyWs c = false) :
    pyStrip (joinSp ps) = joinSp ps := by
  induction ps with
  | nil => exact pyStrip_nil
  | cons p rest ih =>
    cases rest with
    | nil => exact pyStrip_all_nonws (hps p (List.mem_cons_self p [])).2
    | cons q rs =>
      have hp := hps p (List.mem_cons_self p _)
      have hq := hps q (List.mem_cons_of_mem p (List.mem_cons_self q rs))
      have hJne : joinSp (q :: rs) ≠ [] := joinSp_ne_nil hq.1
      rcases joinSp_head_decomp q rs with ⟨X, hX⟩
      obtain ⟨qc, q', hqc⟩ : ∃ qc q', q = qc :: q' := by
        cases q with
        | nil => exact absurd rfl hq.1
        | cons a b => exact ⟨a, b, rfl⟩
      have hqhead : pyWs qc = false := hq.2 qc (by rw [hqc]; simp)
      have hihJ : pyStrip (joinSp (q :: rs)) = joinSp (q :: rs) := by
        apply ih
        intro x hx
        exact hps x (List.mem_cons_of_mem p hx)
      have hstripJ : stripEnd (joinSp (q :: rs)) = joinSp (q :: rs) := by
        have h1 : (joinSp (q :: rs)).dropWhile pyWs = joinSp (q :: rs) := by
          rw [hX, hqc, List.cons_append]
          exact List.dropWhile_cons_of_neg (by simp [hqhead])
        rw [pyStrip, h1] at hihJ
        exact hihJ
      have hSne : stripEnd (' ' :: joinSp (q :: rs)) ≠ [] := by
        intro hnil
        have := stripEnd_eq_nil_iff.mp hnil qc
          (by rw [hX, hqc]; simp)
        rw [hqhead] at this
        exact Bool.false_ne_true this
      have e2 : stripEnd ([' '] ++ joinSp (q :: rs)) =
          [' '] ++ stripEnd (joinSp (q :: rs)) :=
        stripEnd_append_keep (by rw [hstripJ]; exact hJne)
      have e1 : stripEnd (p ++ ([' '] ++ joinSp (q :: rs))) =
          p ++ stripEnd ([' '] ++ joinSp (q :: rs)) :=
        stripEnd_append_keep (by intro hnil; exact hSne (by simpa using hnil))
      rw [joinSp_cons_ne (List.cons_ne_nil q rs),
        pyStrip_nonws_append hp.1 hp.2,
        show p ++ ' ' :: joinSp (q :: rs) =
          p ++ ([' '] ++ joinSp (q :: rs)) from rfl,
        e1, e2, hstripJ]

theorem joinSp_append_singleton {current : List (List Char)} {w : List Char}
    (h : current ≠ []) :
    joinSp (current ++ [w]) = joinSp current ++ ' ' :: w := by
  induction current with
  | nil => exact absurd rfl h
  | cons p rest ih =>
    cases rest with
    | nil => rfl
    | cons q rs =>
      rw [List.cons_append, joinSp_cons_ne (by simp),
        joinSp_cons_ne (List.cons_ne_nil q rs), ih (List.cons_ne_nil q rs)]
      simp

theorem ctrP1_main (ma : Nat) (W : List (List Char))
    (hW : ∀ p ∈ W, p ≠ [] ∧ ∀ c ∈ p, pyWs c = false) :
    ∀ (ws current : List (List Char)), (∀ p ∈ ws, p ∈ W) →
      (∀ p ∈ current, p ∈ W) → current ≠ [] →
      ((joinSp current).length ≤ ma ∨ ∃ w ∈ W, current = [w]) →
      ∃ f rest, ctrP1 ma current ws = f :: rest ∧
        (joinSp current).length ≤ f.length ∧
        List.Chain' (fun c d => ma < c.length + 1 + d.length) (f :: rest) ∧
        ∀ ch ∈ f :: rest, ch.length ≤ ma ∨ ch ∈ W := by
  intro ws
  induction ws with
  | nil =>
    intro current hsub hcur hne hinv
    refine ⟨joinSp current, [], ?_, Nat.le_refl _, List.chain'_singleton _, ?_⟩
    · rw [ctrP1, if_neg (by simp [hne])]
    · intro ch hch
      rcases List.mem_singleton.mp hch with h1
      rw [h1]
      rcases hinv with h2 | ⟨w, hw, h3⟩
      · exact Or.inl h2
      · rw [h3]
        exact Or.inr (by simpa [joinSp] using hw)
  | cons w ws' ih =>
    intro current hsub hcur hne hinv
    have hcur' : ∀ p ∈ current ++ [w], p ∈ W := by
      intro p hp
      rcases List.mem_append.mp hp with h1 | h2
      · exact hcur p h1
      · rw [List.mem_singleton.mp h2]
        exact hsub w (List.mem_cons_self w ws')
    have hwords : ∀ p ∈ current ++ [w], p ≠ [] ∧ ∀ c ∈ p, pyWs c = false :=
      fun p hp => hW p (hcur' p hp)
    have hstrip : pyStrip (joinSp (current ++ [w])) = joinSp (current ++ [w]) :=
      pyStrip_joinSp_words hwords
    have hjlen : (joinSp (current ++ [w])).length =
        (joinSp current).length + 1 + w.length := by
      rw [joinSp_append_singleton hne]
      simp
      omega
    by_cases htent : (pyStrip (joinSp (current ++ [w]))).length ≤ ma
    · rw [show ctrP1 ma current (w :: ws') = ctrP1 ma (current ++ [w]) ws' by
        rw [ctrP1, if_pos htent]]
      rcases ih (current ++ [w])
        (fun p hp => hsub p (List.mem_cons_of_mem w hp)) hcur' (by simp)
        (Or.inl (by rw [← hstrip]; exact htent)) with
        ⟨f, rest, heq, hflen, hchain, hitems⟩
      refine ⟨f, rest, heq, ?_, hchain, hitems⟩
      rw [hstrip] at htent
      omega
    · rw [show ctrP1 ma current (w :: ws') =
          (if current.isEmpty then [] else [joinSp current]) ++
            ctrP1 ma [w] ws' by rw [ctrP1, if_neg htent],
        if_neg (by simp [hne])]
      have hwin : w ∈ W := hsub w (List.mem_cons_self w ws')
      rcases ih [w] (fun p hp => hsub p (List.mem_cons_of_mem w hp))
        (fun p hp => by rw [List.mem_singleton.mp hp]; exact hwin)
        (by simp) (Or.inr ⟨w, hwin, rfl⟩) with
        ⟨f, rest, heq, hflen, hchain, hitems⟩
      rw [heq]
      refine ⟨joinSp current, f :: rest, rfl, Nat.le_refl _, ?_, ?_⟩
      · rw [List.chain'_cons]
        constructor
        · rw [hstrip, hjlen] at htent
          have hwlen : w.length ≤ f.length := by
            simpa [joinSp] using hflen
          omega
        · exact hchain
      · intro ch hch
        rcases List.mem_cons.mp hch with h1 | h2
        · rw [h1]
          rcases hinv with h2 | ⟨v, hv, h3⟩
          · exact Or.inl h2
          · rw [h3]
            exact Or.inr (by simpa [joinSp] using hv)
        · exact hitems ch h2

theorem ctrMerge_nil (mi ma : Nat) : ctrMerge mi ma [] = [] := by
  rw [ctrMerge]

theorem ctrMerge_single (mi ma : Nat) (c : List Char) :
    ctrMerge mi ma [c] = [c] := by
  rw [ctrMerge]

theorem ctrMerge_cons₂_pos {mi ma : Nat} {c d : List Char}
    {rest : List (List Char)}
    (h : c.length < mi ∧ (c ++ ' ' :: d).length ≤ ma * 2) :
    ctrMerge mi ma (c :: d :: rest) =
      (c ++ ' ' :: d) :: ctrMerge mi ma rest := by
  rw [ctrMerge, if_pos h]

theorem ctrMerge_cons₂_neg {mi ma : Nat} {c d : List Char}
    {rest : List (List Char)}
    (h : ¬(c.length < mi ∧ (c ++ ' ' :: d).length ≤ ma * 2)) :
    ctrMerge mi ma (c :: d :: rest) = c :: ctrMerge mi ma (d :: rest) := by
  rw [ctrMerge, if_neg h]

theorem ctrMerge_head (mi ma : Nat) (d : List Char)
    (rest : List (List Char)) :
    ∃ f r, ctrMerge mi ma (d :: rest) = f :: r ∧ d.length ≤ f.length := by
  cases rest with
  | nil => exact ⟨d, [], ctrMerge_single mi ma d, Nat.le_refl _⟩
  | cons e rs =>
    by_cases h : d.length < mi ∧ (d ++ ' ' :: e).length ≤ ma * 2
    · exact ⟨d ++ ' ' :: e, ctrMerge mi ma rs, ctrMerge_cons₂_pos h, by simp⟩
    · exact ⟨d, ctrMerge mi ma (e :: rs), ctrMerge_cons₂_neg h, Nat.le_refl _⟩

theorem ctrMerge_items {W : List (List Char)} (mi ma : Nat) :
    ∀ l, (∀ c ∈ l, c.length ≤ ma ∨ c ∈ W) →
      ∀ c ∈ ctrMerge mi ma l, c.length ≤ 2 * ma ∨ c ∈ W := by
  intro l
  induction l using ctrMerge.induct mi ma with
  | case1 =>
    intro _ c hc
    rw [ctrMerge_nil] at hc
    simp at hc
  | case2 c =>
    intro hin x hx
    rw [ctrMerge_single] at hx
    rcases List.mem_singleton.mp hx with h1
    rcases hin c (List.mem_cons_self c _) with h2 | h3
    · exact Or.inl (by rw [h1]; omega)
    · exact Or.inr (h1 ▸ h3)
  | case3 c d rest hcond ih =>
    intro hin x hx
    rw [ctrMerge_cons₂_pos hcond] at hx
    rcases List.mem_cons.mp hx with h1 | h2
    · refine Or.inl ?_
      rw [h1]
      have := hcond.2
      simp at this ⊢
      omega
    · exact ih (fun y hy => hin y
        (List.mem_cons_of_mem c (List.mem_cons_of_mem d hy))) x h2
  | case4 c d rest hcond ih =>
    intro hin x hx
    rw [ctrMerge_cons₂_neg hcond] at hx
    rcases List.mem_cons.mp hx with h1 | h2
    · rcases hin c (List.mem_cons_self c _) with h3 | h4
      · exact Or.inl (by rw [h1]; omega)
      · exact Or.inr (h1 ▸ h4)
    · exact ih (fun y hy => hin y (List.mem_cons_of_mem c hy)) x h2

theorem ctrMerge_chain (mi ma : Nat) (hmi : mi ≤ ma) :
    ∀ l, List.Chain' (fun c d : List Char => ma < c.length + 1 + d.length) l →
      List.Chain'
        (fun x y : List Char =>
          x.length < mi → 2 * ma < x.length + 1 + y.length)
        (ctrMerge mi ma l) := by
  intro l
  induction l using ctrMerge.induct mi ma with
  | case1 =>
    intro _
    rw [ctrMerge_nil]
    exact List.chain'_nil
  | case2 c =>
    intro _
    rw [ctrMerge_single]
    exact List.chain'_singleton _
  | case3 c d rest hcond ih =>
    intro hch
    rw [ctrMerge_cons₂_pos hcond]
    refine List.chain'_cons'.mpr ⟨?_, ih (hch.tail.tail)⟩
    intro y _ hpre
    have hcombo : (c ++ ' ' :: d).length = c.length + 1 + d.length := by
      simp
      omega
    have hrel : ma < c.length + 1 + d.length :=
      (List.chain'_cons.mp hch).1
    rw [hcombo] at hpre
    omega
  | case4 c d rest hcond ih =>
    intro hch
    rw [ctrMerge_cons₂_neg hcond]
    rcases ctrMerge_head mi ma d rest with ⟨f, r, heq, hflen⟩
    refine List.chain'_cons'.mpr ⟨?_, ih hch.tail⟩
    intro y hy hpre
    rw [heq] at hy
    simp only [List.head?_cons, Option.mem_def, Option.some.injEq] at hy
    have hcombo : (c ++ ' ' :: d).length = c.length + 1 + d.length := by
      simp
      omega
    have h2ma : ¬(c ++ ' ' :: d).length ≤ ma * 2 := by
      intro habs
      exact hcond ⟨hpre, habs⟩
    rw [hcombo] at h2ma
    rw [← hy]
    omega

theorem ctrP1_top (ma : Nat) (W : List (List Char))
    (hW : ∀ p ∈ W, p ≠ [] ∧ ∀ c ∈ p, pyWs c = false)
    (ws : List (List Char)) (hsub : ∀ p ∈ ws, p ∈ W) :
    List.Chain' (fun c d : List Char => ma < c.length + 1 + d.length)
      (ctrP1 ma [] ws) ∧
    ∀ ch ∈ ctrP1 ma [] ws, ch.length ≤ ma ∨ ch ∈ W := by
  cases ws with
  | nil =>
    rw [show ctrP1 ma [] [] = [] by rw [ctrP1]; rfl]
    exact ⟨List.chain'_nil, by intro ch hch; simp at hch⟩
  | cons w ws' =>
    have hwin : w ∈ W := hsub w (List.mem_cons_self w ws')
    have hsub' : ∀ p ∈ ws', p ∈ W := fun p hp =>
      hsub p (List.mem_cons_of_mem w hp)
    have hmem1 : ∀ p ∈ [w], p ∈ W := by
      intro p hp
      rw [List.mem_singleton.mp hp]
      exact hwin
    by_cases htent : (pyStrip (joinSp ([] ++ [w]))).length ≤ ma
    · rw [show ctrP1 ma [] (w :: ws') = ctrP1 ma ([] ++ [w]) ws' by
        rw [ctrP1, if_pos htent]]
      rcases ctrP1_main ma W hW ws' ([] ++ [w]) hsub' (by simpa using hmem1)
        (by simp)
        (Or.inr ⟨w, hwin, by simp⟩) with ⟨f, rest, heq, _, hchain, hitems⟩
      rw [heq]
      exact ⟨hchain, hitems⟩
    · rw [show ctrP1 ma [] (w :: ws') =
          (if ([] : List (List Char)).isEmpty then [] else [joinSp []]) ++
            ctrP1 ma [w] ws' by rw [ctrP1, if_neg htent]]
      rcases ctrP1_main ma W hW ws' [w] hsub' hmem1 (by simp)
        (Or.inr ⟨w, hwin, rfl⟩) with ⟨f, rest, heq, _, hchain, hitems⟩
      rw [heq, show (if ([] : List (List Char)).isEmpty then
          ([] : List (List Char)) else [joinSp []]) ++ (f :: rest) =
          f :: rest by simp]
      exact ⟨hchain, hitems⟩

/-- C3 (amended): for `min_len ≤ max_len`, every item emitted by
`chunk_to_range` either has length at most `2 * max_len` (items within
`max_len`, and merged pairs which may reach `2 * max_len`) or is a single
original word emitted whole (never truncated); and an emitted item shorter
than `min_len` is either the last item or one whose merge with the following
item would exceed `2 * max_len`. -/
theorem C3_bullet_merge_bounds (text : List Char) (mi ma : Nat)
    (hmi : mi ≤ ma) :
    (∀ item ∈ chunk_to_range text mi ma,
      item.length ≤ 2 * ma ∨ item ∈ pyWords text) ∧
    List.Chain'
      (fun x y : List Char =>
        x.length < mi → 2 * ma < x.length + 1 + y.length)
      (chunk_to_range text mi ma) := by
  have hW : ∀ p ∈ pyWords text, p ≠ [] ∧ ∀ c ∈ p, pyWs c = false :=
    fun p hp => ⟨pyWords_mem_ne_nil hp, pyWords_mem_nonws hp⟩
  rcases ctrP1_top ma (pyWords text) hW (pyWords text) (fun p hp => hp) with
    ⟨hchain, hitems⟩
  exact ⟨ctrMerge_items mi ma (ctrP1 ma [] (pyWords text)) hitems,
    ctrMerge_chain mi ma hmi (ctrP1 ma [] (pyWords text)) hchain⟩

/-- Witness for C3 (amended) at a concrete input. -/
theorem C3_bullet_merge_bounds_witness :
    (∀ item ∈ chunk_to_range ("aa bb".toList) 2 4,
      item.length ≤ 2 * 4 ∨ item ∈ pyWords ("aa bb".toList)) ∧
    List.Chain'
      (fun x y : List Char =>
        x.length < 2 → 2 * 4 < x.length + 1 + y.length)
      (chunk_to_range ("aa bb".toList) 2 4) :=
  C3_bullet_merge_bounds ("aa bb".toList) 2 4 (by decide)

/-- A 79-character word followed by a 140-character word. -/
def exC3 : List Char := List.replicate 79 'a' ++ ' ' :: List.replicate 140 'b'

set_option maxHeartbeats 4000000 in
set_option maxRecDepth 100000 in
/-- C3 counterexample: with the default bounds min_len = 80 and
max_len = 140, the input of a 79-character word and a 140-character word
yields phase-1 chunks of 79 and 140 characters; the phase-2 merge emits their
combination of length 220, which exceeds max_len and is not a single original
word — refuting that every emitted item lies within [min_len, max_len] except
single words longer than max_len. -/
theorem C3_bullet_merge_bounds_counterexample :
    ∃ item ∈ chunk_to_range exC3 80 140,
      ¬(80 ≤ item.length ∧ item.length ≤ 140) ∧ item ∉ pyWords exC3 := by
  have hW : pyWords exC3 =
      [List.replicate 79 'a', List.replicate 140 'b'] := by
    rw [exC3, pyWords_append_sep pyWs_space,
      pyWords_single (by decide) (by decide),
      pyWords_single (by decide) (by decide)]
    rfl
  refine ⟨List.replicate 79 'a' ++ ' ' :: List.replicate 140 'b', ?_, ?_, ?_⟩
  · rw [chunk_to_range, hW]
    decide
  · decide
  · rw [hW]
    decide

/-! The semester-aware splitter `split_oque_vou_aprender_sections` of
json_to_pdf.py (lines 194–247).  The function first applies
`format_disciplines`; the splitter below takes that output (`formatted`) as
its input and models the cited region: line splitting, semester grouping and
per-block chunking. -/

/-- Python `t.split("\n")`. -/
def splitNL : List Char → List (List Char)
  | [] => [[]]
  | c :: rest =>
    if c = '\n' then [] :: splitNL rest
    else match splitNL rest with
      | s :: ss => (c :: s) :: ss
      | [] => [[c]]

/-- Python `"\n".join(parts)`. -/
def joinNL : List (List Char) → List Char
  | [] => []
  | [x] => x
  | x :: xs => x ++ '\n' :: joinNL xs

/-- Python `re.compile(r"\d+º\s+semestre", re.IGNORECASE).match(line)`:
at the start of the line, one or more digits, `º`, whitespace, then
`semestre` case-insensitively.  (If the literal does not follow the maximal
whitespace run it cannot follow a shorter one either — the next character
would be whitespace, not `s` — so greedy matching needs no backtracking.) -/
def isSemHeader (l : List Char) : Bool :=
  let ds := l.takeWhile Char.isDigit
  match l.dropWhile Char.isDigit with
  | o :: r2 =>
    !ds.isEmpty && decide (o = 'º') && !(r2.takeWhile pyWs).isEmpty &&
      decide (((r2.dropWhile pyWs).take 8).map Char.toLower =
        "semestre".toList)
  | [] => false

/-- The semester grouping loop (lines 199–211): group the stripped lines into
blocks, starting a new block at each semester-header line and skipping empty
lines; each block is its lines joined with newlines, then stripped. -/
def groupSem : List (List Char) → List (List Char) → List (List Char)
  | [], current => if current.isEmpty then [] else [pyStrip (joinNL current)]
  | l :: rest, current =>
    if l.isEmpty then groupSem rest current
    else if isSemHeader l then
      (if current.isEmpty then [] else [pyStrip (joinNL current)]) ++
        groupSem rest [l]
    else groupSem rest (current ++ [l])

/-- Per-block chunk construction (lines 216–245): a block whose nonblank
lines are only the header yields the collapsed header; otherwise the
collapsed whole block is one chunk when it is within 900 characters, else the
body is re-chunked with `chunk_text_range resto 400 900` and the header is
prepended to every sub-chunk. -/
def blockChunks (block : List Char) : List (List Char) :=
  match (splitNL block).filter (fun l => !(pyStrip l).isEmpty) with
  | [] => []
  | header :: resto_lines =>
    if resto_lines.isEmpty then
      if (collapse_whitespace header).isEmpty then []
      else [collapse_whitespace header]
    else
      let resto := collapse_whitespace (joinSp resto_lines)
      if resto.isEmpty then []
      else
        let full := collapse_whitespace (header ++ ' ' :: resto)
        if full.length ≤ 900 then [full]
        else (chunk_text_range resto 400 900).map
          (fun sub => collapse_whitespace (header ++ ' ' :: sub))

/-- The splitter on the formatted curriculum text. -/
def split_sections (formatted : List Char) : List (List Char) :=
  (groupSem ((splitNL formatted).map pyStrip) []).flatMap blockChunks

/-- C4: every chunk produced by the semester-aware splitter starts with the
(collapsed) header text of the block it came from — the block's first
nonblank line — including every sub-chunk of a re-chunked large block. -/
theorem C4_header_repetition (formatted : List Char) :
    ∀ c ∈ split_sections formatted,
      ∃ block ∈ groupSem ((splitNL formatted).map pyStrip) [],
        c ∈ blockChunks block ∧ ∃ hdr rest,
          (splitNL block).filter (fun l => !(pyStrip l).isEmpty) =
            hdr :: rest ∧
          collapse_whitespace hdr <+: c := by
  intro c hc
  rcases List.mem_flatMap.mp hc with ⟨block, hblock, hcb⟩
  refine ⟨block, hblock, hcb, ?_⟩
  rw [blockChunks] at hcb
  cases hsplit : (splitNL block).filter (fun l => !(pyStrip l).isEmpty) with
  | nil =>
    rw [hsplit] at hcb
    simp at hcb
  | cons hdr rest =>
    rw [hsplit] at hcb
    simp only [] at hcb
    refine ⟨hdr, rest, rfl, ?_⟩
    by_cases hrest : rest.isEmpty = true
    · rw [if_pos hrest] at hcb
      by_cases hho : (collapse_whitespace hdr).isEmpty = true
      · rw [if_pos hho] at hcb
        simp at hcb
      · rw [if_neg hho] at hcb
        rcases List.mem_singleton.mp hcb with h1
        rw [h1]
    · rw [if_neg hrest] at hcb
      by_cases hres : (collapse_whitespace (joinSp rest)).isEmpty = true
      · rw [if_pos hres] at hcb
        simp at hcb
      · rw [if_neg hres] at hcb
        by_cases hfull : (collapse_whitespace
            (hdr ++ ' ' :: collapse_whitespace (joinSp rest))).length ≤ 900
        · rw [if_pos hfull] at hcb
          rcases List.mem_singleton.mp hcb with h1
          rw [h1]
          exact collapse_whitespace_pref hdr _
        · rw [if_neg hfull] at hcb
          rcases List.mem_map.mp hcb with ⟨sub, _, hsub⟩
          rw [← hsub]
          exact collapse_whitespace_pref hdr _

theorem C4_header_repetition_witness :
    ("1º semestre Alg".toList ∈
        split_sections ("1º semestre\nAlg".toList)) ∧
      (∃ block ∈ groupSem
          ((splitNL ("1º semestre\nAlg".toList)).map pyStrip) [],
        "1º semestre Alg".toList ∈ blockChunks block ∧ ∃ hdr rest,
          (splitNL block).filter (fun l => !(pyStrip l).isEmpty) =
            hdr :: rest ∧
          collapse_whitespace hdr <+: "1º semestre Alg".toList) := by
  have hmem : "1º semestre Alg".toList ∈
      split_sections ("1º semestre\nAlg".toList) := by
    set_option maxHeartbeats 1000000 in
    simp [split_sections, groupSem, blockChunks, splitNL, joinNL,
      isSemHeader, pyStrip, stripEnd, pyWs, collapse_whitespace,
      collapseWs, joinSp, chunk_text_range]
  exact ⟨hmem, C4_header_repetition ("1º semestre\nAlg".toList)
    ("1º semestre Alg".toList) hmem⟩

/-- Modelled from the words of claim C5 (not from the source): for each
semester block, "if the whole block (header plus body, whitespace-collapsed)
fits within [400,900] characters it is emitted as exactly one chunk;
otherwise only the body is re-chunked via the character-window strategy with
400–900 character bounds and the header text is prepended to every resulting
piece". -/
def C5_claim_blockChunks (block : List Char) : List (List Char) :=
  match (splitNL block).filter (fun l => !(pyStrip l).isEmpty) with
  | [] => []
  | header :: resto_lines =>
    let resto := collapse_whitespace (joinSp resto_lines)
    let full := collapse_whitespace (header ++ ' ' :: resto)
    if 400 ≤ full.length ∧ full.length ≤ 900 then [full]
    else (chunk_text_range resto 400 900).map
      (fun sub => collapse_whitespace (header ++ ' ' :: sub))

/-- C5 counterexample: on the formatted text consisting of the single header
line `1º semestre`, the code emits that header as one chunk (its collapsed
length, 11, is simply at most 900 — no lower bound is checked), while the
claim's routing finds the whole block outside [400,900] and re-chunks the
empty body, producing no chunk at all. -/
theorem C5_block_size_routing_counterexample :
    split_sections ("1º semestre".toList) = ["1º semestre".toList] ∧
      (groupSem ((splitNL ("1º semestre".toList)).map pyStrip) []).flatMap
        C5_claim_blockChunks = [] := by
  constructor
  · set_option maxHeartbeats 1000000 in
    simp [split_sections, groupSem, blockChunks, splitNL, joinNL,
      isSemHeader, pyStrip, stripEnd, pyWs, collapse_whitespace,
      collapseWs, joinSp]
  · set_option maxHeartbeats 1000000 in
    simp [groupSem, C5_claim_blockChunks, splitNL, joinNL, isSemHeader,
      pyStrip, stripEnd, pyWs, collapse_whitespace, collapseWs, joinSp,
      chunk_text_range, ctrPre, ctrTail, ctrLoop, split_into_sentences,
      nlSub, sentSplit]

/-- C5 (amended): semester block size routing as implemented.  For a block
whose nonblank lines are `hdr :: rest`: if the header is the only nonblank
line, the block yields the collapsed header alone (when nonempty); otherwise,
with body `resto` (the collapsed space-join of the remaining lines) and
`full` the collapsed `hdr + " " + resto`, the block is emitted as the single
chunk `full` whenever `full` has at most 900 characters — no 400-character
lower bound is checked — and only when `full` exceeds 900 characters is the
body re-chunked with `chunk_text_range resto 400 900`, the header being
prepended to every sub-chunk. -/
theorem C5_block_size_routing (block hdr : List Char)
    (rest : List (List Char))
    (hsplit : (splitNL block).filter (fun l => !(pyStrip l).isEmpty) =
      hdr :: rest) :
    (rest = [] → blockChunks block =
      (if (collapse_whitespace hdr).isEmpty then []
        else [collapse_whitespace hdr])) ∧
    (rest ≠ [] →
      ((collapse_whitespace
          (hdr ++ ' ' :: collapse_whitespace (joinSp rest))).length ≤ 900 →
        blockChunks block =
          [collapse_whitespace
            (hdr ++ ' ' :: collapse_whitespace (joinSp rest))]) ∧
      (900 < (collapse_whitespace
          (hdr ++ ' ' :: collapse_whitespace (joinSp rest))).length →
        blockChunks block =
          (chunk_text_range (collapse_whitespace (joinSp rest)) 400 900).map
            (fun sub => collapse_whitespace (hdr ++ ' ' :: sub)))) := by
  constructor
  · intro hnil
    subst hnil
    rw [blockChunks, hsplit]
    rfl
  · intro hne
    have hresto : collapse_whitespace (joinSp rest) ≠ [] := by
      cases rest with
      | nil => exact absurd rfl hne
      | cons r rs =>
        have hrmem : r ∈ (splitNL block).filter
            (fun l => !(pyStrip l).isEmpty) := by
          rw [hsplit]
          exact List.mem_cons_of_mem hdr (List.mem_cons_self r rs)
        have hrprop : (!(pyStrip r).isEmpty) = true :=
          (List.mem_filter.mp hrmem).2
        have hrstrip : pyStrip r ≠ [] := by
          intro h0
          rw [h0] at hrprop
          simp at hrprop
        have hrwords : pyWords r ≠ [] := by
          intro h0
          exact hrstrip (pyStrip_eq_nil_iff.mpr (pyWords_eq_nil_iff.mp h0))
        rw [collapse_whitespace_eq, pyWords_joinSp, List.flatMap_cons]
        cases hpw : pyWords r with
        | nil => exact absurd hpw hrwords
        | cons w ws =>
          rw [List.cons_append]
          exact joinSp_ne_nil
            (pyWords_mem_ne_nil (hpw ▸ List.mem_cons_self w ws))
    have hrestoE : (collapse_whitespace (joinSp rest)).isEmpty ≠ true := by
      simp [List.isEmpty_iff, hresto]
    have hrestE : rest.isEmpty ≠ true := by
      simp [List.isEmpty_iff, hne]
    constructor
    · intro hle
      rw [blockChunks, hsplit]
      simp only []
      rw [if_neg hrestE, if_neg hrestoE, if_pos hle]
    · intro hgt
      rw [blockChunks, hsplit]
      simp only []
      rw [if_neg hrestE, if_neg hrestoE, if_neg (by omega)]

theorem C5_block_size_routing_witness :
    ((splitNL ("1º semestre\nAlg".toList)).filter
        (fun l => !(pyStrip l).isEmpty) =
      "1º semestre".toList :: ["Alg".toList]) ∧
    ((["Alg".toList] = [] →
        blockChunks ("1º semestre\nAlg".toList) =
          (if (collapse_whitespace ("1º semestre".toList)).isEmpty then []
            else [collapse_whitespace ("1º semestre".toList)])) ∧
      (["Alg".toList] ≠ [] →
        ((collapse_whitespace (("1º semestre".toList) ++ ' ' ::
            collapse_whitespace (joinSp ["Alg".toList]))).length ≤ 900 →
          blockChunks ("1º semestre\nAlg".toList) =
            [collapse_whitespace (("1º semestre".toList) ++ ' ' ::
              collapse_whitespace (joinSp ["Alg".toList]))]) ∧
        (900 < (collapse_whitespace (("1º semestre".toList) ++ ' ' ::
            collapse_whitespace (joinSp ["Alg".toList]))).length →
          blockChunks ("1º semestre\nAlg".toList) =
            (chunk_text_range
              (collapse_whitespace (joinSp ["Alg".toList])) 400 900).map
              (fun sub => collapse_whitespace (("1º semestre".toList) ++
                ' ' :: sub))))) :=
  ⟨by decide, C5_block_size_routing ("1º semestre\nAlg".toList)
    ("1º semestre".toList) ["Alg".toList] (by decide)⟩

/-! The index builder and query engine of rag_index.py (lines 110–223).

The embedding model and the filesystem are external collaborators: the model
is a parameter `embed` (one vector per text, applied batch-wise by mapping),
the per-snippet `uuid.uuid4()` draw is a parameter `uuids` indexed by
creation order, and `build_index` returns the ordered list of write effects
it would perform together with its outcome.  Python falsiness of the string
fields (`None` or `""`) is modelled by `[]`; `a or b` on such fields is
`orFalsy`. -/

/-- Python `a or b` for falsy-defaulted string fields. -/
def orFalsy (a b : List Char) : List Char :=
  if a = [] then b else a

/-- The `toDisplay` sub-object of a course (missing keys are `[]`). -/
structure ToDisplay where
  title : List Char
  tipoName : List Char
deriving DecidableEq

/-- One element of the `cursos` array (missing keys are `[]`). -/
structure Course where
  articleId : List Char
  title : List Char
  toDisplay : ToDisplay
  objetivoComercial : List Char
  comoVouAprender : List Char
  possoFazerEsseCurso : List Char
  oqueVouAprender : List Char
deriving DecidableEq

/-- A snippet before its uuid is attached: the chunk text plus the metadata
fields of lines 162–168. -/
structure Snip where
  text : List Char
  articleId : List Char
  nomeCurso : List Char
  campo : List Char
  field : List Char
deriving DecidableEq

/-- One metadata record as written to metadata.jsonl: the snippet metadata
(with its uuid) plus the chunk text (line 184). -/
structure SnipRec where
  id : List Char
  articleId : List Char
  nomeCurso : List Char
  campo : List Char
  field : List Char
  text : List Char
deriving DecidableEq

/-- The four (field name, stripped text) pairs of lines 146–156. -/
def fieldsOf (c : Course) : List (List Char × List Char) :=
  [("objetivo".toList, strip_html c.objetivoComercial),
   ("metodologia".toList, strip_html c.comoVouAprender),
   ("requisitos".toList, strip_html c.possoFazerEsseCurso),
   ("conteudo".toList, strip_html c.oqueVouAprender)]

/-- The snippets one course contributes (lines 139–169): empty fields are
skipped, nonempty ones are chunked with `simple_chunk` at the 900/150
defaults, and each chunk carries the course metadata. -/
def courseSnippets (ov : List Char) (c : Course) : List Snip :=
  (fieldsOf c).flatMap (fun fe =>
    if fe.2 = [] then []
    else (simple_chunk fe.2 900 150).map (fun ch =>
      ⟨ch, c.articleId, orFalsy c.title c.toDisplay.title,
        orFalsy ov c.toDisplay.tipoName, fe.1⟩))

/-- All snippets of the corpus, in course order. -/
def collectSnippets (ov : List Char) (cursos : List Course) : List Snip :=
  cursos.flatMap (courseSnippets ov)

/-- Attach the uuids in creation order (the `uuid.uuid4()` of line 163,
drawn once per snippet) and the text, producing the metadata records. -/
def withIds (uuids : Nat → List Char) : Nat → List Snip → List SnipRec
  | _, [] => []
  | i, s :: rest =>
    ⟨uuids i, s.articleId, s.nomeCurso, s.campo, s.field, s.text⟩ ::
      withIds uuids (i + 1) rest

/-- The externally visible write effects of a build, in program order:
`os.makedirs`, `faiss.write_index` of the added vectors, and the
metadata.jsonl lines. -/
inductive BuildEffect where
  | ensureDir
  | writeIndex (vectors : List (List Int))
  | writeMeta (records : List SnipRec)
deriving DecidableEq

/-- `build_index` (lines 110–185): raise on a missing/empty `cursos` array
before anything else; collect the snippets; raise before any write when no
snippet was produced; otherwise embed the texts in order and perform the
three writes.  (The Python messages contain apostrophes, which are elided
here.) -/
def build_index (cursos : List Course) (ov : List Char)
    (embed : List Char → List Int) (uuids : Nat → List Char) :
    List BuildEffect × Except (List Char) Unit :=
  if cursos = [] then
    ([], Except.error ("JSON does not contain key cursos or it is empty".toList))
  else
    let snippets := collectSnippets ov cursos
    if snippets = [] then
      ([], Except.error ("No textual content found to index".toList))
    else
      ([BuildEffect.ensureDir,
        BuildEffect.writeIndex ((snippets.map Snip.text).map embed),
        BuildEffect.writeMeta (withIds uuids 0 snippets)],
       Except.ok ())

theorem withIds_map_text (uuids : Nat → List Char) :
    ∀ (i : Nat) (l : List Snip),
      (withIds uuids i l).map SnipRec.text = l.map Snip.text := by
  intro i l
  induction l generalizing i with
  | nil => rfl
  | cons s rest ih => simp [withIds, ih]

/-- C1: ordinal alignment of the two stores.  Whenever `build_index`
succeeds, the vector list written to the index is exactly the embedding of
the metadata records' text fields, record by record and in the same order:
the two lists have equal length and for every in-range `i` the `i`-th
vector is the embedding of the `i`-th record's text. -/
theorem C1_ordinal_alignment (cursos : List Course) (ov : List Char)
    (embed : List Char → List Int) (uuids : Nat → List Char)
    (vectors : List (List Int)) (records : List SnipRec)
    (hok : build_index cursos ov embed uuids =
      ([BuildEffect.ensureDir, BuildEffect.writeIndex vectors,
        BuildEffect.writeMeta records], Except.ok ())) :
    vectors = records.map (fun r => embed r.text) ∧
      vectors.length = records.length ∧
      ∀ i, i < records.length →
        vectors[i]? = (records[i]?).map (fun r => embed r.text) := by
  rw [build_index] at hok
  by_cases hc : cursos = []
  · rw [if_pos hc] at hok
    exact absurd (congrArg Prod.fst hok) (by simp)
  · rw [if_neg hc] at hok
    simp only [] at hok
    by_cases hs : collectSnippets ov cursos = []
    · rw [if_pos hs] at hok
      exact absurd (congrArg Prod.fst hok) (by simp)
    · rw [if_neg hs] at hok
      have h1 : ((collectSnippets ov cursos).map Snip.text).map embed =
          vectors := by
        have := congrArg Prod.fst hok
        simp only [Prod.fst] at this
        injection this with ha hb
        injection hb with hb hcons
        injection hb
      have h2 : withIds uuids 0 (collectSnippets ov cursos) = records := by
        have := congrArg Prod.fst hok
        simp only [Prod.fst] at this
        injection this with ha hb
        injection hb with hb hcons
        injection hcons with hcons hnil
        injection hcons
      have hmain : vectors = records.map (fun r => embed r.text) := by
        rw [← h1, ← h2,
          ← withIds_map_text uuids 0 (collectSnippets ov cursos),
          List.map_map]
        rfl
      refine ⟨hmain, ?_, ?_⟩
      · rw [hmain, List.length_map]
      · intro i hi
        rw [hmain, List.getElem?_map]

theorem C1_ordinal_alignment_witness :
    (build_index
        [⟨"1".toList, "T".toList, ⟨[], "Cat".toList⟩,
          "Goal".toList, [], [], []⟩]
        [] (fun t => [(t.length : Int)]) (fun _ => ['u']) =
      ([BuildEffect.ensureDir, BuildEffect.writeIndex [[(4 : Int)]],
        BuildEffect.writeMeta [⟨['u'], "1".toList, "T".toList,
          "Cat".toList, "objetivo".toList, "Goal".toList⟩]],
       Except.ok ())) ∧
    ([[(4 : Int)]] =
        ([⟨['u'], "1".toList, "T".toList, "Cat".toList,
          "objetivo".toList, "Goal".toList⟩] : List SnipRec).map
          (fun r => (fun t : List Char => [(t.length : Int)]) r.text) ∧
      ([[(4 : Int)]] : List (List Int)).length =
        ([⟨['u'], "1".toList, "T".toList, "Cat".toList,
          "objetivo".toList, "Goal".toList⟩] : List SnipRec).length ∧
      ∀ i, i < ([⟨['u'], "1".toList, "T".toList, "Cat".toList,
          "objetivo".toList, "Goal".toList⟩] : List SnipRec).length →
        ([[(4 : Int)]] : List (List Int))[i]? =
          (([⟨['u'], "1".toList, "T".toList, "Cat".toList,
            "objetivo".toList, "Goal".toList⟩] : List SnipRec)[i]?).map
            (fun r => (fun t : List Char => [(t.length : Int)]) r.text)) := by
  have heq : build_index
      [⟨"1".toList, "T".toList, ⟨[], "Cat".toList⟩,
        "Goal".toList, [], [], []⟩]
      [] (fun t => [(t.length : Int)]) (fun _ => ['u']) =
      ([BuildEffect.ensureDir, BuildEffect.writeIndex [[(4 : Int)]],
        BuildEffect.writeMeta [⟨['u'], "1".toList, "T".toList,
          "Cat".toList, "objetivo".toList, "Goal".toList⟩]],
       Except.ok ()) := by
    set_option maxHeartbeats 1000000 in
    simp [build_index, collectSnippets, courseSnippets, fieldsOf,
      strip_html, removeTags, collapseWs, pyStrip, stripEnd, pyWs,
      deNbsp, nbspChar, simple_chunk, withIds, orFalsy]
  exact ⟨heq, C1_ordinal_alignment _ _ _ _ _ _ heq⟩

/-- C7: build failure atomicity.  An empty (or missing) `cursos` array makes
`build_index` fail with its named message and an empty effect list; a
nonempty corpus that yields zero snippets — in particular one where every
text field of every course is empty — fails with the "no textual content"
message and an empty effect list; and every failing run performs no write
effect at all (no directory creation, no index file, no metadata file). -/
theorem C7_build_failure_atomicity (cursos : List Course) (ov : List Char)
    (embed : List Char → List Int) (uuids : Nat → List Char) :
    (cursos = [] →
      build_index cursos ov embed uuids =
        ([], Except.error
          ("JSON does not contain key cursos or it is empty".toList))) ∧
    (cursos ≠ [] → collectSnippets ov cursos = [] →
      build_index cursos ov embed uuids =
        ([], Except.error ("No textual content found to index".toList))) ∧
    ((∀ c ∈ cursos, c.objetivoComercial = [] ∧ c.comoVouAprender = [] ∧
        c.possoFazerEsseCurso = [] ∧ c.oqueVouAprender = []) →
      collectSnippets ov cursos = []) ∧
    (∀ effects err, build_index cursos ov embed uuids =
      (effects, Except.error err) → effects = []) := by
  refine ⟨?_, ?_, ?_, ?_⟩
  · intro hc
    rw [build_index, if_pos hc]
  · intro hc hs
    rw [build_index, if_neg hc]
    simp only []
    rw [if_pos hs]
  · intro hall
    rw [collectSnippets, List.flatMap_eq_nil_iff]
    intro c hco
    rcases hall c hco with ⟨h1, h2, h3, h4⟩
    simp [courseSnippets, fieldsOf, h1, h2, h3, h4, strip_html]
  · intro effects err heq
    rw [build_index] at heq
    by_cases hc : cursos = []
    · rw [if_pos hc] at heq
      exact (congrArg Prod.fst heq).symm
    · rw [if_neg hc] at heq
      simp only [] at heq
      by_cases hs : collectSnippets ov cursos = []
      · rw [if_pos hs] at heq
        exact (congrArg Prod.fst heq).symm
      · rw [if_neg hs] at heq
        have := congrArg Prod.snd heq
        simp only [Prod.snd] at this
        exact absurd this (by simp)

theorem C7_build_failure_atomicity_witness :
    (build_index [] [] (fun _ => ([] : List Int)) (fun _ => []) =
      ([], Except.error
        ("JSON does not contain key cursos or it is empty".toList))) ∧
    (build_index [⟨[], [], ⟨[], []⟩, [], [], [], []⟩] []
        (fun _ => ([] : List Int)) (fun _ => []) =
      ([], Except.error ("No textual content found to index".toList))) :=
  ⟨(C7_build_failure_atomicity [] [] (fun _ => []) (fun _ => [])).1 rfl,
   (C7_build_failure_atomicity [⟨[], [], ⟨[], []⟩, [], [], [], []⟩] []
      (fun _ => []) (fun _ => [])).2.1 (by simp)
    ((C7_build_failure_atomicity [⟨[], [], ⟨[], []⟩, [], [], [], []⟩] []
        (fun _ => []) (fun _ => [])).2.2.1 (by simp))⟩

/-! The query side of rag_index.py (lines 206–223).  The FAISS flat
inner-product index is modelled exactly: `search(q, k)` scores every stored
vector by inner product with the query, returns the `k` best (score, ordinal)
pairs in descending score order, and — as FAISS does when `k` exceeds the
number of stored vectors — pads the remainder with the invalid ordinal `-1`
(the padding score is irrelevant downstream, where only the ordinal is
checked). -/

/-- Inner product of two vectors. -/
def dot : List Int → List Int → Int
  | a :: as, b :: bs => a * b + dot as bs
  | _, _ => 0

/-- All (score, ordinal) pairs of the stored vectors against a query. -/
def scored (vecs : List (List Int)) (q : List Int) : List (Int × Int) :=
  (List.range vecs.length).map
    (fun i => (dot q (vecs.getD i []), (Int.ofNat i)))

/-- `index.search(q, k)` of a flat inner-product index: the `k` best pairs in
descending score order, padded with ordinal `-1` when `k` exceeds the number
of stored vectors. -/
def searchIndex (vecs : List (List Int)) (q : List Int) (k : Nat) :
    List (Int × Int) :=
  ((scored vecs q).mergeSort (fun a b => decide (b.1 ≤ a.1))).take k ++
    List.replicate (k - vecs.length) (0, -1)

/-- The stored record at an ordinal (total, with a dummy out-of-range
default; `query_core` only applies it in range). -/
def getRec (metadata : List SnipRec) (i : Nat) : SnipRec :=
  (metadata[i]?).getD ⟨[], [], [], [], [], []⟩

/-- The result loop of `query_index` (lines 216–222): each (score, idx) hit
with `idx < 0` or `idx >= len(metadata)` is skipped; the rest yield a copy
of the stored record paired with the score. -/
def query_core (metadata : List SnipRec) (hits : List (Int × Int)) :
    List (SnipRec × Int) :=
  hits.filterMap (fun h =>
    if h.2 < 0 ∨ (metadata.length : Int) ≤ h.2 then none
    else (metadata[h.2.toNat]?).map (fun r => (r, h.1)))

/-- `query_index` (lines 206–223): embed the query, search with
`min(top_k, len(metadata))`, and rehydrate the hits. -/
def query_index (metadata : List SnipRec) (vecs : List (List Int))
    (embed : List Char → List Int) (q : List Char) (top_k : Nat) :
    List (SnipRec × Int) :=
  query_core metadata
    (searchIndex vecs (embed q) (min top_k metadata.length))

theorem length_scored (vecs : List (List Int)) (q : List Int) :
    (scored vecs q).length = vecs.length := by
  simp [scored]

theorem scored_mem {vecs : List (List Int)} {q : List Int}
    {h : Int × Int} (hm : h ∈ scored vecs q) :
    ∃ i : Nat, i < vecs.length ∧
      h = (dot q (vecs.getD i []), (Int.ofNat i)) := by
  rcases List.mem_map.mp hm with ⟨i, hi, hh⟩
  exact ⟨i, List.mem_range.mp hi, hh.symm⟩

theorem searchIndex_length (vecs : List (List Int)) (q : List Int) (k : Nat) :
    (searchIndex vecs q k).length = k := by
  have hms : ((scored vecs q).mergeSort
      (fun a b => decide (b.1 ≤ a.1))).length = vecs.length := by
    rw [(List.mergeSort_perm _ _).length_eq, length_scored]
  rw [searchIndex, List.length_append, List.length_take, hms,
    List.length_replicate]
  omega

theorem searchIndex_mem {vecs : List (List Int)} {q : List Int} {k : Nat}
    (hk : k ≤ vecs.length) {h : Int × Int}
    (hm : h ∈ searchIndex vecs q k) :
    ∃ i : Nat, i < vecs.length ∧
      h = (dot q (vecs.getD i []), (Int.ofNat i)) := by
  rw [searchIndex, show k - vecs.length = 0 by omega,
    List.replicate_zero, List.append_nil] at hm
  exact scored_mem
    ((List.mergeSort_perm _ _).mem_iff.mp (List.mem_of_mem_take hm))

theorem query_core_all_valid (metadata : List SnipRec) :
    ∀ hits : List (Int × Int),
      (∀ h ∈ hits, 0 ≤ h.2 ∧ h.2 < (metadata.length : Int)) →
      query_core metadata hits =
        hits.map (fun h => (getRec metadata h.2.toNat, h.1)) := by
  intro hits
  induction hits with
  | nil => intro _; rfl
  | cons h t ih =>
    intro hv
    rcases hv h (List.mem_cons_self h t) with ⟨h0, h1⟩
    have hlt : h.2.toNat < metadata.length := by omega
    have hcond : ¬(h.2 < 0 ∨ (metadata.length : Int) ≤ h.2) := by omega
    have hrec : getRec metadata h.2.toNat = metadata[h.2.toNat] := by
      rw [getRec, List.getElem?_eq_getElem hlt]
      rfl
    rw [query_core, List.filterMap_cons]
    rw [if_neg hcond, List.getElem?_eq_getElem hlt, List.map_cons, hrec]
    show (metadata[h.2.toNat], h.1) :: query_core metadata t = _
    rw [ih (fun x hx => hv x (List.mem_cons_of_mem h hx))]

theorem range_map_getRec (metadata : List SnipRec) :
    (List.range metadata.length).map (fun i => getRec metadata i) =
      metadata := by
  apply List.ext_getElem
  · simp
  · intro n h1 h2
    simp [getRec, List.getElem?_eq_getElem h2]

/-- C6: k-clamping at query time.  With `n` stored vectors aligned with the
metadata (`n = len(metadata)`), the search performed by `query_index` asks
for `min(top_k, n)` results and returns exactly that many (score, ordinal)
pairs; every returned pair carries a valid ordinal `i < n` (no padding
entries appear) with score the inner product of the query with vector `i`;
and when `top_k` exceeds `n` the query returns exactly the `n` stored
records — each metadata record appearing exactly once (a permutation, in
descending score order) with its score — neither an error nor a truncated or
padded result. -/
theorem C6_k_clamping (metadata : List SnipRec) (vecs : List (List Int))
    (embed : List Char → List Int) (q : List Char) (k : Nat)
    (hlen : vecs.length = metadata.length) :
    (searchIndex vecs (embed q) (min k metadata.length)).length =
      min k metadata.length ∧
    (∀ h ∈ searchIndex vecs (embed q) (min k metadata.length),
      ∃ i : Nat, i < vecs.length ∧
        h = (dot (embed q) (vecs.getD i []), (Int.ofNat i))) ∧
    (metadata.length ≤ k →
      List.Perm ((query_index metadata vecs embed q k).map Prod.fst)
        metadata ∧
      (query_index metadata vecs embed q k).length = metadata.length) := by
  refine ⟨searchIndex_length _ _ _, ?_, ?_⟩
  · intro h hm
    exact searchIndex_mem (by omega) hm
  · intro hk
    have hmin : min k metadata.length = metadata.length := by omega
    have hfull : searchIndex vecs (embed q) (min k metadata.length) =
        (scored vecs (embed q)).mergeSort
          (fun a b => decide (b.1 ≤ a.1)) := by
      rw [searchIndex, hmin, show metadata.length - vecs.length = 0 by omega,
        List.replicate_zero, List.append_nil]
      apply List.take_of_length_le
      rw [(List.mergeSort_perm _ _).length_eq, length_scored]
      omega
    have hperm : List.Perm ((scored vecs (embed q)).mergeSort
        (fun a b => decide (b.1 ≤ a.1))) (scored vecs (embed q)) :=
      List.mergeSort_perm _ _
    have hvalid : ∀ h ∈ (scored vecs (embed q)).mergeSort
        (fun a b => decide (b.1 ≤ a.1)),
        0 ≤ h.2 ∧ h.2 < (metadata.length : Int) := by
      intro h hm
      rcases scored_mem (hperm.mem_iff.mp hm) with ⟨i, hi, hh⟩
      rw [hh]
      constructor
      · exact Int.ofNat_nonneg i
      · have hi2 : i < metadata.length := by omega
        show (Int.ofNat i) < (metadata.length : Int)
        rw [Int.ofNat_eq_natCast]
        exact_mod_cast hi2
    have hq : query_index metadata vecs embed q k =
        ((scored vecs (embed q)).mergeSort
          (fun a b => decide (b.1 ≤ a.1))).map
          (fun h => (getRec metadata h.2.toNat, h.1)) := by
      rw [query_index, hfull, query_core_all_valid metadata _ hvalid]
    have hmapfst : (query_index metadata vecs embed q k).map Prod.fst =
        ((scored vecs (embed q)).mergeSort
          (fun a b => decide (b.1 ≤ a.1))).map
          (fun h => getRec metadata h.2.toNat) := by
      rw [hq, List.map_map]
      rfl
    have hscored_map : (scored vecs (embed q)).map
        (fun h => getRec metadata h.2.toNat) = metadata := by
      rw [scored, List.map_map]
      have hcomp : ((fun h : Int × Int => getRec metadata h.2.toNat) ∘
          (fun i => (dot (embed q) (vecs.getD i []), (Int.ofNat i)))) =
          fun i : Nat => getRec metadata i := by
        funext i
        simp
      rw [hcomp, hlen, range_map_getRec]
    refine ⟨?_, ?_⟩
    · rw [hmapfst]
      have hp2 := hperm.map (fun h => getRec metadata h.2.toNat)
      rw [hscored_map] at hp2
      exact hp2
    · rw [hq, List.length_map, hperm.length_eq, length_scored, hlen]

theorem C6_k_clamping_witness :
    ((searchIndex [[(2 : Int)]] ((fun _ : List Char => [(3 : Int)]) [])
        (min 5 ([(⟨['u'], [], [], [], [], ['t']⟩ : SnipRec)]).length)).length =
      min 5 ([(⟨['u'], [], [], [], [], ['t']⟩ : SnipRec)]).length ∧
    (∀ h ∈ searchIndex [[(2 : Int)]] ((fun _ : List Char => [(3 : Int)]) [])
        (min 5 ([(⟨['u'], [], [], [], [], ['t']⟩ : SnipRec)]).length),
      ∃ i : Nat, i < ([[(2 : Int)]] : List (List Int)).length ∧
        h = (dot ((fun _ : List Char => [(3 : Int)]) [])
          (([[(2 : Int)]] : List (List Int)).getD i []), (Int.ofNat i))) ∧
    (([(⟨['u'], [], [], [], [], ['t']⟩ : SnipRec)]).length ≤ 5 →
      List.Perm ((query_index [(⟨['u'], [], [], [], [], ['t']⟩ : SnipRec)]
          [[(2 : Int)]] (fun _ => [(3 : Int)]) [] 5).map Prod.fst)
        [(⟨['u'], [], [], [], [], ['t']⟩ : SnipRec)] ∧
      (query_index [(⟨['u'], [], [], [], [], ['t']⟩ : SnipRec)]
          [[(2 : Int)]] (fun _ => [(3 : Int)]) [] 5).length =
        ([(⟨['u'], [], [], [], [], ['t']⟩ : SnipRec)]).length)) :=
  C6_k_clamping [(⟨['u'], [], [], [], [], ['t']⟩ : SnipRec)] [[(2 : Int)]]
    (fun _ => [(3 : Int)]) [] 5 rfl

/-- C10: query-result safety.  `query_index` never performs an out-of-range
metadata access: its result loop is exactly a filter keeping the hits whose
ordinal lies in `[0, len(metadata))` followed by rehydration, so every
returned result is a copy of some stored metadata record (paired with the
hit's score) and the number of results is at most
`min(top_k, len(metadata))`. -/
theorem C10_query_result_safety (metadata : List SnipRec)
    (vecs : List (List Int)) (embed : List Char → List Int)
    (q : List Char) (top_k : Nat) :
    (∀ r ∈ query_index metadata vecs embed q top_k,
      ∃ i : Nat, i < metadata.length ∧ metadata[i]? = some r.1) ∧
    (query_index metadata vecs embed q top_k).length ≤
      min top_k metadata.length ∧
    (∀ hits : List (Int × Int), query_core metadata hits =
      (hits.filter (fun h => decide (0 ≤ h.2) &&
        decide (h.2 < (metadata.length : Int)))).map
        (fun h => (getRec metadata h.2.toNat, h.1))) := by
  refine ⟨?_, ?_, ?_⟩
  · intro r hr
    rw [query_index, query_core] at hr
    rcases List.mem_filterMap.mp hr with ⟨h, _, hf⟩
    by_cases hcond : h.2 < 0 ∨ (metadata.length : Int) ≤ h.2
    · rw [if_pos hcond] at hf
      exact absurd hf (by simp)
    · rw [if_neg hcond] at hf
      push_neg at hcond
      have hlt : h.2.toNat < metadata.length := by omega
      refine ⟨h.2.toNat, hlt, ?_⟩
      rw [List.getElem?_eq_getElem hlt] at hf
      have hr1 : (metadata[h.2.toNat], h.1) = r := by
        injection hf
      rw [← hr1, List.getElem?_eq_getElem hlt]
  · rw [query_index, query_core]
    calc (List.filterMap _ _).length
        ≤ (searchIndex vecs (embed q) (min top_k metadata.length)).length :=
          List.length_filterMap_le _ _
      _ = min top_k metadata.length := searchIndex_length _ _ _
  · intro hits
    induction hits with
    | nil => rfl
    | cons h t ih =>
      rw [query_core] at ih
      rw [query_core, List.filterMap_cons, List.filter_cons]
      by_cases hcond : h.2 < 0 ∨ (metadata.length : Int) ≤ h.2
      · have hpred : (decide (0 ≤ h.2) &&
            decide (h.2 < (metadata.length : Int))) = false := by
          rcases hcond with hc | hc
          · rw [decide_eq_false (by omega : ¬(0 ≤ h.2))]
            rfl
          · rw [decide_eq_false (by omega : ¬(h.2 < (metadata.length : Int))),
              Bool.and_false]
        rw [if_pos hcond, hpred]
        rw [if_neg (by simp)]
        exact ih
      · push_neg at hcond
        have hlt : h.2.toNat < metadata.length := by omega
        have hpred : (decide (0 ≤ h.2) &&
            decide (h.2 < (metadata.length : Int))) = true := by
          rw [decide_eq_true hcond.1, decide_eq_true (by omega), Bool.and_self]
        have hcond2 : ¬(h.2 < 0 ∨ (metadata.length : Int) ≤ h.2) := by omega
        rw [if_neg hcond2, List.getElem?_eq_getElem hlt, hpred]
        rw [if_pos rfl, List.map_cons]
        show (metadata[h.2.toNat], h.1) :: List.filterMap _ t = _
        rw [ih]
        have hrec : getRec metadata h.2.toNat = metadata[h.2.toNat] := by
          rw [getRec, List.getElem?_eq_getElem hlt]
          rfl
        rw [hrec]
